import Mathlib

/-!
Shallow embedding of `src/lib.rs` (rust-poker-hand): a poker hand
classification and winner-selection library.

Modelling conventions:
* Rust `&str` values are modelled as `List Char` (a Lean `Char` is one
  Unicode scalar value, just like a Rust `char`).  `str::len()` counts
  UTF-8 bytes, so it is modelled by `byteLen` (sum of `Char.utf8Size`),
  not by the number of characters.
* `u8` card values fit far below 2^8 (2..14), so they are modelled as
  `Nat`; no arithmetic in the source can overflow a `u8`.
* Fallible Rust functions return `Result<_, String>`; they are modelled
  with `Except Failure _` where `Failure.err` is an ordinary `Err(..)`
  return and `Failure.panic` marks a Rust runtime panic (out-of-bounds
  slice or index, `unwrap` on `None`).  A panic aborts the whole call,
  so panics are propagated unchanged by every caller.
* `HashMap<u8, usize>` in `PokerHand::new` is only read through its
  final contents.  Its iteration order is arbitrary; the source's loop
  over it is order-independent (the count-4 key is unique, the count-3
  key is unique, and the count-2 keys are only used through `max`/`min`,
  their number, or as the single element `pairs[0]`), so the model
  iterates the distinct card values via `List.dedup`.
* Rust's `slice::sort` (used via `Vec::sort`) is a stable sort driven by
  `Ord::cmp`; it is modelled by a stable insertion sort driven by the
  same comparison function.
-/

/-- Outcome of a fallible Rust computation: an `Err(..)` return or a panic. -/
inductive Failure where
  | panic (msg : String)
  | err (msg : String)
deriving DecidableEq, Repr

/-- The four suits, from `enum Suit`. -/
inductive Suit where
  | Clubs
  | Diamonds
  | Hearts
  | Spades
deriving DecidableEq, Repr

/-- `impl TryFrom<char> for Suit`. -/
def suitTryFrom (s : Char) : Except String Suit :=
  if s = 'C' then .ok .Clubs
  else if s = 'D' then .ok .Diamonds
  else if s = 'H' then .ok .Hearts
  else if s = 'S' then .ok .Spades
  else .error "Invalid Suit"

/-- `struct Card`: suit together with the numeric value 2..14. -/
structure Card where
  suit : Suit
  numeric_value : Nat
deriving DecidableEq, Repr

/-- `str::len()`: the UTF-8 byte length of a string. -/
def byteLen (s : List Char) : Nat := (s.map Char.utf8Size).sum

/-- Whether byte index 2 is a character boundary of a 3-byte string
(the boundary `&str_card[0..2]` slices at).  The first char either covers
bytes 0..2 exactly (size 2), or is a 1-byte char followed by another
1-byte char; anything else puts byte 2 inside a character. -/
def charBoundaryAt2 (s : List Char) : Bool :=
  match s with
  | [] => false
  | c :: rest =>
    if c.utf8Size = 2 then true
    else if c.utf8Size = 1 then
      match rest with
      | [] => false
      | c2 :: _ => c2.utf8Size = 1
    else false

/-- The characters making up the first two bytes of a string, i.e. the
slice `&str_card[0..2]` (meaningful when `charBoundaryAt2` holds: then it
is either one 2-byte char or two 1-byte chars). -/
def firstTwoBytes (s : List Char) : List Char :=
  match s with
  | [] => []
  | c :: rest =>
    if c.utf8Size = 2 then [c]
    else
      match rest with
      | c2 :: _ => [c, c2]
      | [] => [c]

/-- `Card::new`.  `size` is the byte length; a 3-byte token must start
with the two bytes `"10"` (else `Invalid card`), the rank glyph is
matched (`'2'..='9' | 'T' | 'J' | 'Q' | 'K' | 'A'`, else `Invalid
value`), and the final character is the suit.  The slice
`&str_card[0..2]` panics when byte 2 is not a char boundary, and
`chars().nth(size - 1).unwrap()` panics when the string has fewer than
`size` characters. -/
def Card.new (str_card : List Char) : Except Failure Card :=
  let size := byteLen str_card
  if ¬ (2 ≤ size ∧ size ≤ 3) then
    .error (.err "Invalid card length")
  else
    let valueRes : Except Failure Char :=
      if size = 2 then
        match str_card with
        | c :: _ => .ok c
        | [] => .error (.panic "unwrap on None")
      else
        if charBoundaryAt2 str_card then
          if firstTwoBytes str_card = ['1', '0'] then .ok 'T'
          else .error (.err ("Invalid card: " ++ String.mk str_card))
        else .error (.panic "byte index 2 is not a char boundary")
    match valueRes with
    | .error e => .error e
    | .ok value =>
      let numRes : Except Failure Nat :=
        if '2' ≤ value ∧ value ≤ '9' then .ok (value.toNat - '0'.toNat)
        else if value = 'T' then .ok 10
        else if value = 'J' then .ok 11
        else if value = 'Q' then .ok 12
        else if value = 'K' then .ok 13
        else if value = 'A' then .ok 14
        else .error (.err "Invalid value")
      match numRes with
      | .error e => .error e
      | .ok numeric_value =>
        match str_card.get? (size - 1) with
        | none => .error (.panic "unwrap on None")
        | some sc =>
          match suitTryFrom sc with
          | .error e => .error (.err e)
          | .ok suit => .ok { suit := suit, numeric_value := numeric_value }

/-- Three-way comparison on `Nat`, the model of `u8::cmp`. -/
def natCmp (a b : Nat) : Ordering :=
  if a < b then .lt else if b < a then .gt else .eq

/-- The index-descending loop of `HighCardData::cmp`: compare entries at
indices `n-1, n-2, ..., 0`, returning the first non-equal comparison.
Rust indexes `other.cards[i]` directly (panicking when `other` is
shorter than `self`); out-of-range reads are modelled with `getD _ 0`,
and every in-system comparison is between equal-length payloads. -/
def hcGo (a b : List Nat) : Nat → Ordering
  | 0 => .eq
  | n + 1 =>
    let x := a.getD n 0
    let y := b.getD n 0
    if x ≠ y then natCmp x y else hcGo a b n

/-- `HighCardData::cmp`: iterate `(0..self.cards.len()).rev()`. -/
def highCardDataCmp (a b : List Nat) : Ordering := hcGo a b a.length

/-- The wheel normalisation inside `StraightData::cmp`: a payload whose
first entry is 2 and last entry is 14 is replaced by
`[1, v[0], v[1], v[2], v[3]]` (the ace is dropped from the top and a 1
is inserted at the bottom). -/
def straightNormalize (v : List Nat) : List Nat :=
  if v.getD 0 0 = 2 ∧ v.getD (v.length - 1) 0 = 14 then
    [1, v.getD 0 0, v.getD 1 0, v.getD 2 0, v.getD 3 0]
  else v

/-- `StraightData::cmp`: normalise both payloads for the wheel, then
compare as `HighCardData`. -/
def straightDataCmp (a b : List Nat) : Ordering :=
  highCardDataCmp (straightNormalize a) (straightNormalize b)

/-- `enum HandType` with each variant's tie-break payload:
`StraightFlush`, `Flush` and `HighCard` carry a `HighCardData` (the five
sorted values ascending), `Straight` carries a `StraightData`, and the
remaining variants carry their named fields. -/
inductive HandType where
  | StraightFlush (cards : List Nat)
  | FourOfAKind (four_of_a_kind_value : Nat) (remaining_card : Nat)
  | FullHouse (three_of_a_kind_value : Nat) (pair_value : Nat)
  | Flush (cards : List Nat)
  | Straight (cards : List Nat)
  | ThreeOfAKind (three_of_a_kind_value : Nat) (remaining_cards : List Nat)
  | TwoPairs (high_pair_value : Nat) (low_pair_value : Nat) (remaining_card : Nat)
  | OnePair (pair_value : Nat) (remaining_cards : List Nat)
  | HighCard (cards : List Nat)
deriving DecidableEq, Repr

/-- `HandType::rank`: 9 = best (`StraightFlush`) down to 1 (`HighCard`). -/
def HandType.rank : HandType → Nat
  | .StraightFlush _ => 9
  | .FourOfAKind _ _ => 8
  | .FullHouse _ _ => 7
  | .Flush _ => 6
  | .Straight _ => 5
  | .ThreeOfAKind _ _ => 4
  | .TwoPairs _ _ _ => 3
  | .OnePair _ _ => 2
  | .HighCard _ => 1

/-- Position of a variant in the declaration order of `enum HandType`,
used by the derived `Ord` to compare values of different variants. -/
def HandType.idx : HandType → Nat
  | .StraightFlush _ => 0
  | .FourOfAKind _ _ => 1
  | .FullHouse _ _ => 2
  | .Flush _ => 3
  | .Straight _ => 4
  | .ThreeOfAKind _ _ => 5
  | .TwoPairs _ _ _ => 6
  | .OnePair _ _ => 7
  | .HighCard _ => 8

/-- The `#[derive(Ord)]` comparison on `HandType`: discriminants in
declaration order first, then the payload `Ord` implementations
(`FourOfAKindData::cmp`, `FullHouseData::cmp`, `StraightDataCmp::cmp`,
`ThreeOfAKindData::cmp`, `TwoPairsData::cmp`, `OnePairData::cmp`,
`HighCardData::cmp`), each of which compares its fields in order with
early return on the first non-equal comparison (`Ordering.then`). -/
def handTypeCmp (a b : HandType) : Ordering :=
  match a, b with
  | .StraightFlush d1, .StraightFlush d2 => highCardDataCmp d1 d2
  | .FourOfAKind v1 k1, .FourOfAKind v2 k2 => (natCmp v1 v2).then (natCmp k1 k2)
  | .FullHouse t1 p1, .FullHouse t2 p2 => (natCmp t1 t2).then (natCmp p1 p2)
  | .Flush d1, .Flush d2 => highCardDataCmp d1 d2
  | .Straight d1, .Straight d2 => straightDataCmp d1 d2
  | .ThreeOfAKind t1 r1, .ThreeOfAKind t2 r2 => (natCmp t1 t2).then (highCardDataCmp r1 r2)
  | .TwoPairs h1 l1 k1, .TwoPairs h2 l2 k2 =>
    (natCmp h1 h2).then ((natCmp l1 l2).then (natCmp k1 k2))
  | .OnePair p1 r1, .OnePair p2 r2 => (natCmp p1 p2).then (highCardDataCmp r1 r2)
  | .HighCard d1, .HighCard d2 => highCardDataCmp d1 d2
  | x, y => natCmp x.idx y.idx

/-- `PokerHand::cmp`: category rank first (higher rank wins), then the
derived `HandType` comparison (which, at equal rank, is the payload
comparison of the shared variant). -/
def pokerHandCmp (a b : HandType) : Ordering :=
  (natCmp a.rank b.rank).then (handTypeCmp a b)

/-- `str::split(' ')`: split at every space, keeping empty pieces; the
result always has at least one piece. -/
def splitOnSpace : List Char → List (List Char)
  | [] => [[]]
  | c :: cs =>
    let rest := splitOnSpace cs
    if c = ' ' then [] :: rest
    else
      match rest with
      | r :: rs => (c :: r) :: rs
      | [] => [[c]]

/-- The card-parsing loop of `PokerHand::new`: parse each token in
order; the first token whose `Card::new` fails aborts with
`"Cannot create card"` (a panic is propagated as a panic). -/
def parseCards : List (List Char) → Except Failure (List Card)
  | [] => .ok []
  | t :: ts =>
    match Card.new t with
    | .error (.panic m) => .error (.panic m)
    | .error (.err _) => .error (.err "Cannot create card")
    | .ok c =>
      match parseCards ts with
      | .error e => .error e
      | .ok cs => .ok (c :: cs)

/-- Stable insertion of a card into a value-sorted list: the new card
goes after existing cards of equal value. -/
def insertCard (x : Card) : List Card → List Card
  | [] => [x]
  | y :: ys =>
    if x.numeric_value < y.numeric_value then x :: y :: ys
    else y :: insertCard x ys

/-- `cards.sort_by(|a, b| a.numeric_value.cmp(&b.numeric_value))`: a
stable ascending sort by numeric value. -/
def sortCards (cards : List Card) : List Card :=
  cards.foldl (fun acc x => insertCard x acc) []

/-- State of the straight-detection part of the card loop in
`PokerHand::new`: `previous_value` (0 until set), `straight_counter`
(starts at 1) and `starts_at_two`. -/
structure StraightState where
  previous_value : Nat
  straight_counter : Nat
  starts_at_two : Bool
deriving DecidableEq, Repr

/-- One iteration of the straight-detection logic in the card loop of
`PokerHand::new`, reading the card's numeric value. -/
def valueStep (st : StraightState) (v : Nat) : StraightState :=
  let st1 :=
    if st.previous_value = 0 then
      if v = 2 then { st with starts_at_two := true }
      else { st with previous_value := v }
    else if v = st.previous_value + 1 then
      { st with straight_counter := st.straight_counter + 1 }
    else st
  if v ≠ st1.previous_value then { st1 with previous_value := v } else st1

/-- One iteration of the flush-detection logic in the card loop of
`PokerHand::new`: the pair is `(previous_suit, suit_counter)`; a
matching suit increments the counter, a mismatch resets it to 0. -/
def suitStep (st : Suit × Nat) (s : Suit) : Suit × Nat :=
  if s = st.1 then (st.1, st.2 + 1) else (s, 0)

/-- `PokerHand::is_straight` (together with its helper
`is_straight_starting_with_ace`): a straight is a straight counter of 5,
or a counter of 4 for a hand starting at 2 and ending in an ace. -/
def PokerHand.is_straight (straight_counter : Nat) (starts_at_two : Bool)
    (last_card_numeric_value : Nat) : Bool :=
  straight_counter == 5 ||
    (straight_counter == 4 && starts_at_two && last_card_numeric_value == 14)

/-- The classification part of `PokerHand::new`, applied to the
value-sorted card list.  The single Rust loop over the sorted cards
updates three independent groups of state: the suit pair
(`previous_suit`, `suit_counter`), the straight state (`previous_value`,
`straight_counter`, `starts_at_two`) and the `kind_count_map`; they are
modelled as two folds over the suit / value projections plus
`List.count` over the values.  `cards[0]` on an empty vector, and `[0]`
on an empty filtered vector, are Rust panics. -/
def classifySorted (cards : List Card) : Except Failure HandType :=
  match cards with
  | [] => .error (.panic "index out of bounds")
  | first :: _ =>
    let suits := cards.map (fun c => c.suit)
    let vals := cards.map (fun c => c.numeric_value)
    let suit_counter := (suits.foldl suitStep (first.suit, 0)).2
    let vst := vals.foldl valueStep
      { previous_value := 0, straight_counter := 1, starts_at_two := false }
    let is_flush := suit_counter == 5
    let is_straight := PokerHand.is_straight vst.straight_counter vst.starts_at_two
      (vals.getD (vals.length - 1) 0)
    if is_flush then
      if is_straight then .ok (.StraightFlush vals) else .ok (.Flush vals)
    else if is_straight then .ok (.Straight vals)
    else
      let distinct := vals.dedup
      match distinct.find? (fun k => vals.count k == 4) with
      | some key =>
        match vals.filter (fun v => v != key) with
        | other :: _ => .ok (.FourOfAKind key other)
        | [] => .error (.panic "index out of bounds")
      | none =>
        let pairs := distinct.filter (fun k => vals.count k == 2)
        match distinct.find? (fun k => vals.count k == 3) with
        | some three_of_a_kind_value =>
          if pairs.length == 1 then
            match pairs with
            | p :: _ => .ok (.FullHouse three_of_a_kind_value p)
            | [] => .error (.panic "index out of bounds")
          else
            .ok (.ThreeOfAKind three_of_a_kind_value
              (vals.filter (fun v => v != three_of_a_kind_value)))
        | none =>
          if pairs.length == 2 then
            match pairs with
            | p0 :: p1 :: _ =>
              let highest_pair := max p0 p1
              let lowest_pair := min p0 p1
              match vals.filter (fun v => v != highest_pair && v != lowest_pair) with
              | other :: _ => .ok (.TwoPairs highest_pair lowest_pair other)
              | [] => .error (.panic "index out of bounds")
            | _ => .error (.panic "index out of bounds")
          else if pairs.length == 1 then
            match pairs with
            | p :: _ => .ok (.OnePair p (vals.filter (fun v => v != p)))
            | _ => .error (.panic "index out of bounds")
          else
            .ok (.HighCard vals)

/-- `PokerHand::new`: split the hand string on spaces, parse every
token, sort by numeric value, and classify.  Only the `HandType` is
returned; the hand string itself is carried alongside by the callers. -/
def PokerHand.new (str_hand : List Char) : Except Failure HandType :=
  match parseCards (splitOnSpace str_hand) with
  | .error e => .error e
  | .ok cards => classifySorted (sortCards cards)

/-- The hand-processing loop of `winning_hands`: classify each hand in
order; the first failing hand makes the whole batch return `None`
(modelled `.ok none`), a panic propagates. -/
def processHands : List (List Char) → Except String (Option (List (List Char × HandType)))
  | [] => .ok (some [])
  | h :: hs =>
    match PokerHand.new h with
    | .error (.panic m) => .error m
    | .error (.err _) => .ok none
    | .ok ht =>
      match processHands hs with
      | .error m => .error m
      | .ok none => .ok none
      | .ok (some ps) => .ok (some ((h, ht) :: ps))

/-- Stable insertion of a processed hand into a list sorted ascending by
`PokerHand::cmp`: the new hand goes after existing hands comparing equal. -/
def insertHand (x : List Char × HandType) :
    List (List Char × HandType) → List (List Char × HandType)
  | [] => [x]
  | y :: ys =>
    if pokerHandCmp x.2 y.2 == .lt then x :: y :: ys
    else y :: insertHand x ys

/-- `processed_hands.sort()`: stable ascending sort by `PokerHand::cmp`. -/
def sortHands (l : List (List Char × HandType)) : List (List Char × HandType) :=
  l.foldl (fun acc x => insertHand x acc) []

/-- `winning_hands`: `None` for an empty batch; a singleton batch is
returned as is (no parsing); otherwise classify every hand (any failure
gives `None`, modelled `.ok none`; a panic gives `.error`), sort
ascending, reverse, and collect the leading hands comparing equal to the
first (the loop `push`es until the first non-equal hand, then breaks). -/
def winningHands (hands : List (List Char)) : Except String (Option (List (List Char))) :=
  match hands with
  | [] => .ok none
  | [h] => .ok (some [h])
  | _ :: _ :: _ =>
    match processHands hands with
    | .error m => .error m
    | .ok none => .ok none
    | .ok (some ps) =>
      match (sortHands ps).reverse with
      | [] => .error "index out of bounds"
      | top :: rest =>
        .ok (some (top.1 ::
          (rest.takeWhile (fun p => pokerHandCmp p.2 top.2 == .eq)).map (fun p => p.1)))

/-- The card a token parses to, with a dummy card on failure; a proof
device used to express that `parseCards` is the pointwise map of
`Card::new` over the tokens when every token parses. -/
def cardOf (t : List Char) : Card :=
  match Card.new t with
  | .ok c => c
  | .error _ => { suit := .Clubs, numeric_value := 0 }

/-- Payload well-formedness maintained by classification of 5-card
hands: the list payloads have the variant-determined lengths (5 sorted
values for `StraightFlush`, `Flush`, `Straight` and `HighCard`, 2
kickers for `ThreeOfAKind`, 3 kickers for `OnePair`). -/
def WFt : HandType → Prop
  | .StraightFlush d => d.length = 5
  | .FourOfAKind _ _ => True
  | .FullHouse _ _ => True
  | .Flush d => d.length = 5
  | .Straight d => d.length = 5
  | .ThreeOfAKind _ r => r.length = 2
  | .TwoPairs _ _ _ => True
  | .OnePair _ r => r.length = 3
  | .HighCard d => d.length = 5

/-- Encoding of each variant's tie-break payload as a single list that
`hcGo` (bottom index = least significant) compares exactly as the
variant's own payload comparison does: fields compared later sit at
lower indices. -/
def payloadKey : HandType → List Nat
  | .StraightFlush d => d
  | .FourOfAKind v k => [k, v]
  | .FullHouse t p => [p, t]
  | .Flush d => d
  | .Straight d => straightNormalize d
  | .ThreeOfAKind t r => r ++ [t]
  | .TwoPairs h l k => [k, l, h]
  | .OnePair p r => r ++ [p]
  | .HighCard d => d

/-- Length of the payload key of a well-formed hand of a given category
rank. -/
def keyLen : Nat → Nat
  | 9 => 5
  | 8 => 2
  | 7 => 2
  | 6 => 5
  | 5 => 5
  | 4 => 3
  | 3 => 3
  | 2 => 4
  | _ => 5

/-- A string whose characters are all 1-byte (ASCII) characters. -/
def asciiStr (s : List Char) : Bool := s.all (fun c => c.utf8Size == 1)

/-- Whether a computation ended in a Rust panic. -/
def isPanicky {α : Type} : Except Failure α → Bool
  | .error (.panic _) => true
  | _ => false

/-- Whether a computation ended in an ordinary `Err(..)` return. -/
def isErrB {α : Type} : Except Failure α → Bool
  | .error (.err _) => true
  | _ => false

/-- The processed hands tying for best: those not comparing strictly
below any hand of the batch. -/
def tiesForBest (ps : List (List Char × HandType)) : List (List Char × HandType) :=
  ps.filter (fun p => ps.all (fun q => pokerHandCmp p.2 q.2 != Ordering.lt))

/-- Decidable equality for `Except`, used to evaluate the model on
concrete inputs. -/
instance exceptDecEq {ε α : Type} [DecidableEq ε] [DecidableEq α] :
    DecidableEq (Except ε α) := fun a b =>
  match a, b with
  | .ok x, .ok y =>
    if h : x = y then .isTrue (by rw [h]) else .isFalse (by intro hc; cases hc; exact h rfl)
  | .error x, .error y =>
    if h : x = y then .isTrue (by rw [h]) else .isFalse (by intro hc; cases hc; exact h rfl)
  | .ok _, .error _ => .isFalse (by intro hc; cases hc)
  | .error _, .ok _ => .isFalse (by intro hc; cases hc)

/-! ## Sanity checks of the embedding against the spec's worked examples -/

example : winningHands ["4D 5S 6S 8D 3C".data, "2S 4C 7S 9H 10H".data,
    "3S 4S 5D 6H JH".data, "4S 5H 4C 5D 4H".data] =
    .ok (some ["4S 5H 4C 5D 4H".data]) := by decide

example : winningHands ["2H 2D 3H 3D 8H".data, "2S 2C 4S 4C 3S".data] =
    .ok (some ["2S 2C 4S 4C 3S".data]) := by decide

example : winningHands ([] : List (List Char)) = .ok none := rfl

example : PokerHand.new "2H 2D 3H 3D 8H".data = .ok (.TwoPairs 3 2 8) := by decide

example : PokerHand.new "2H 2S 2D 3C 3D".data = .ok (.FullHouse 2 3) := by decide

/-! ## C1: the wheel and the straight categories -/

/--
Claim C1: the comparator is claimed to rank the wheel (ranks
{2,3,4,5,14}) strictly below every other straight of the same category,
for both `Straight` and `StraightFlush`.  The code contradicts this for
`StraightFlush`: that variant's payload is a `HighCardData`, compared
without the ace-low normalisation that `StraightData` applies, so the
wheel straight flush (ace at the top index) beats the 3-4-5-6-7 straight
flush, and `winning_hands` on the two hands returns the wheel alone.
-/
theorem wheel_straight_flush_ranked_highest :
    PokerHand.new "2S 3S 4S 5S AS".data = .ok (.StraightFlush [2, 3, 4, 5, 14]) ∧
    PokerHand.new "3H 4H 5H 6H 7H".data = .ok (.StraightFlush [3, 4, 5, 6, 7]) ∧
    pokerHandCmp (.StraightFlush [2, 3, 4, 5, 14]) (.StraightFlush [3, 4, 5, 6, 7]) = .gt ∧
    winningHands ["2S 3S 4S 5S AS".data, "3H 4H 5H 6H 7H".data] =
      .ok (some ["2S 3S 4S 5S AS".data]) := by decide

/-! ## C2: straight detection -/

/--
Claim C2: a hand is claimed to be marked as a straight iff its five
sorted ranks are five consecutive integers or exactly the wheel set
{2,3,4,5,14}.  The code contradicts this: the straight counter counts
successor steps anywhere in the sorted sequence, so the hand
2-3-4-K-A (sorted ranks [2,3,4,13,14], three successor steps, starting
at 2 and ending in an ace) is classified as a `Straight` even though it
is neither a run nor the wheel.
-/
theorem straight_detection_accepts_2_3_4_K_A :
    PokerHand.new "2H 3D 4C KS AH".data = .ok (.Straight [2, 3, 4, 13, 14]) := by decide

/-! ## C3: order of the returned winners -/

/--
Claim C3 (counterexample): the winners are claimed to be returned in
their original relative input order.  The code stable-sorts ascending
and then reverses, so tying hands come out in reversed input order: for
the batch [2H 3H 4H 5H 6H, 2S 3S 4S 5S 6S] (two equal straight flushes)
the result lists the second input hand first.
-/
theorem tie_order_reversed :
    winningHands ["2H 3H 4H 5H 6H".data, "2S 3S 4S 5S 6S".data] =
      .ok (some ["2S 3S 4S 5S 6S".data, "2H 3H 4H 5H 6H".data]) ∧
    ["2S 3S 4S 5S 6S".data, "2H 3H 4H 5H 6H".data] ≠
      ["2H 3H 4H 5H 6H".data, "2S 3S 4S 5S 6S".data] := by decide

/-! ## C4: when the batch returns an absent result -/

/--
Claim C4 (counterexample): `winning_hands` is claimed to return `None`
iff the batch is empty or some hand fails to parse.  A singleton batch
is returned without any parsing, so a batch containing exactly one
unparseable hand returns `Some` even though the hand fails to parse.
-/
theorem singleton_invalid_hand_some :
    winningHands ["XX".data] = .ok (some ["XX".data]) ∧
    PokerHand.new "XX".data = .error (.err "Cannot create card") := by decide

/-! ## C5: singleton batches -/

/--
Claim C5: for every batch containing exactly one hand string,
`winning_hands` returns `Some` of exactly that string, without invoking
parsing or classification (the model returns before `processHands` is
consulted), even when the string is not a valid hand.
-/
theorem singleton_batch_always_some (h : List Char) :
    winningHands [h] = .ok (some [h]) := rfl

/-! ## C6: hands that do not have five tokens -/

/--
Claim C6 (counterexample): a hand of 4 valid card tokens is claimed to
be rejected with a `MalformedHand` failure, making any batch containing
it return an absent result.  The code performs no cardinality check: the
4-token hand 2H 3H 4H 5H parses and classifies as a `HighCard`, and a
two-hand batch containing it returns a present result.
-/
theorem four_token_hand_not_rejected :
    (splitOnSpace "2H 3H 4H 5H".data).length = 4 ∧
    PokerHand.new "2H 3H 4H 5H".data = .ok (.HighCard [2, 3, 4, 5]) ∧
    winningHands ["2H 3H 4H 5H".data, "2S 3S 4S 5S 6S".data] =
      .ok (some ["2S 3S 4S 5S 6S".data]) := by decide

/-! ## C7: rank glyphs of 2-character tokens -/

/--
Claim C7 (counterexample): every 2-character token whose first character
is outside {2..9, J, Q, K, A} is claimed to fail with an invalid-rank
error.  The code's rank match also accepts `'T'` (as a ten), so the
token TS parses successfully.
-/
theorem card_T_parses :
    Card.new ['T', 'S'] = .ok { suit := Suit.Spades, numeric_value := 10 } := by decide

/--
Claim C7 (amended): for every 2-byte token (two 1-byte characters)
whose first character is not one of the rank glyphs
2-9, T, J, Q, K, A, card parsing fails with the invalid-rank error
(`"Invalid value"`); in particular no other first character yields a
successfully parsed card.
-/
theorem card_invalid_rank_error (c1 c2 : Char) (h1 : c1.utf8Size = 1) (h2 : c2.utf8Size = 1)
    (hd : ¬ ('2' ≤ c1 ∧ c1 ≤ '9')) (hT : c1 ≠ 'T') (hJ : c1 ≠ 'J') (hQ : c1 ≠ 'Q')
    (hK : c1 ≠ 'K') (hA : c1 ≠ 'A') :
    Card.new [c1, c2] = .error (.err "Invalid value") := by
  have hsize : byteLen [c1, c2] = 2 := by simp [byteLen, h1, h2]
  simp [Card.new, hsize, hd, hT, hJ, hQ, hK, hA]

/-- Witness for `card_invalid_rank_error` at the concrete token XS. -/
theorem card_invalid_rank_error_witness :
    Card.new ['X', 'S'] = .error (.err "Invalid value") :=
  card_invalid_rank_error 'X' 'S' (by decide) (by decide) (by decide) (by decide)
    (by decide) (by decide) (by decide) (by decide)

/-! ## C10: panics reachable through winning_hands -/

/--
Claim C10 (counterexample): `winning_hands` is claimed to be total with
all indexing and slicing in bounds for every input batch.  The code
panics on two kinds of input: slicing `&str_card[0..2]` of a 3-byte
non-ASCII token at a non-character boundary, and indexing the empty
remainder `the_other_card[0]` when a 4-token hand consists of four cards
of one value.
-/
theorem winning_hands_panics :
    winningHands ["aé".data, "2H 2D 3H 4S 5C".data] =
      .error "byte index 2 is not a char boundary" ∧
    winningHands ["2H 2D 2S 2C".data, "3H 4H 5H 6H 7H".data] =
      .error "index out of bounds" := by decide

/-! ## Laws of the comparison functions -/

theorem natCmp_lt_iff {a b : Nat} : natCmp a b = .lt ↔ a < b := by
  unfold natCmp
  split_ifs with h1 h2
  · simp [h1]
  · simp
    omega
  · simp
    omega

theorem natCmp_gt_iff {a b : Nat} : natCmp a b = .gt ↔ b < a := by
  unfold natCmp
  split_ifs with h1 h2
  · simp
    omega
  · simp [h2]
  · simp
    omega

theorem natCmp_eq_iff {a b : Nat} : natCmp a b = .eq ↔ a = b := by
  unfold natCmp
  split_ifs with h1 h2
  · simp
    omega
  · simp
    omega
  · simp
    omega

theorem natCmp_self (a : Nat) : natCmp a a = .eq := natCmp_eq_iff.mpr rfl

theorem natCmp_swap (a b : Nat) : natCmp b a = (natCmp a b).swap := by
  unfold natCmp
  split_ifs <;> first
    | rfl
    | omega

theorem then_eq_of_ne {o p : Ordering} (h : o ≠ .eq) : o.then p = o := by
  cases o with
  | lt => rfl
  | gt => rfl
  | eq => exact absurd rfl h

theorem then_eq_right (o : Ordering) : o.then .eq = o := by
  cases o <;> rfl

theorem hcGo_succ_def (a b : List Nat) (n : Nat) :
    hcGo a b (n + 1) =
      if a.getD n 0 ≠ b.getD n 0 then natCmp (a.getD n 0) (b.getD n 0)
      else hcGo a b n := rfl

theorem hcGo_succ (a b : List Nat) (n : Nat) :
    hcGo a b (n + 1) = (natCmp (a.getD n 0) (b.getD n 0)).then (hcGo a b n) := by
  rw [hcGo_succ_def]
  by_cases h : a.getD n 0 = b.getD n 0
  · rw [if_neg (not_not_intro h), h, natCmp_self]
    rfl
  · rw [if_pos h, then_eq_of_ne (natCmp_eq_iff.not.mpr h)]

theorem hcGo_swap (a b : List Nat) (n : Nat) : hcGo b a n = (hcGo a b n).swap := by
  induction n with
  | zero => rfl
  | succ n ih =>
    rw [hcGo_succ, hcGo_succ, natCmp_swap, ih]
    cases natCmp (a.getD n 0) (b.getD n 0) <;> cases hcGo a b n <;> rfl

theorem hcGo_eq_iff (a b : List Nat) (n : Nat) :
    hcGo a b n = .eq ↔ ∀ i, i < n → a.getD i 0 = b.getD i 0 := by
  induction n with
  | zero => simp [hcGo]
  | succ n ih =>
    rw [hcGo_succ]
    by_cases h : a.getD n 0 = b.getD n 0
    · rw [h, natCmp_self, show (Ordering.eq).then (hcGo a b n) = hcGo a b n from rfl, ih]
      constructor
      · intro hall i hi
        rcases Nat.lt_succ_iff_lt_or_eq.mp hi with h2 | h2
        · exact hall i h2
        · exact h2 ▸ h
      · intro hall i hi
        exact hall i (Nat.lt_succ_of_lt hi)
    · rw [then_eq_of_ne (natCmp_eq_iff.not.mpr h)]
      constructor
      · intro hc
        exact absurd (natCmp_eq_iff.mp hc) h
      · intro hall
        exact absurd (hall n (Nat.lt_succ_self n)) h

theorem hcGo_lt_iff (a b : List Nat) (n : Nat) :
    hcGo a b n = .lt ↔ ∃ i, i < n ∧ a.getD i 0 < b.getD i 0 ∧
      ∀ j, i < j → j < n → a.getD j 0 = b.getD j 0 := by
  induction n with
  | zero => simp [hcGo]
  | succ n ih =>
    rw [hcGo_succ]
    by_cases h : a.getD n 0 = b.getD n 0
    · rw [h, natCmp_self, show (Ordering.eq).then (hcGo a b n) = hcGo a b n from rfl, ih]
      constructor
      · rintro ⟨i, hi, hlt, hall⟩
        refine ⟨i, Nat.lt_succ_of_lt hi, hlt, fun j hij hj => ?_⟩
        rcases Nat.lt_succ_iff_lt_or_eq.mp hj with h2 | h2
        · exact hall j hij h2
        · exact h2 ▸ h
      · rintro ⟨i, hi, hlt, hall⟩
        have hin : i ≠ n := by
          intro he
          rw [he, h] at hlt
          omega
        refine ⟨i, by omega, hlt, fun j hij hj => hall j hij (Nat.lt_succ_of_lt hj)⟩
    · rw [then_eq_of_ne (natCmp_eq_iff.not.mpr h)]
      constructor
      · intro hc
        exact ⟨n, Nat.lt_succ_self n, natCmp_lt_iff.mp hc, fun j hij hj => by omega⟩
      · rintro ⟨i, hi, hlt, hall⟩
        rcases Nat.lt_succ_iff_lt_or_eq.mp hi with h2 | h2
        · exact absurd (hall n h2 (Nat.lt_succ_self n)) h
        · exact natCmp_lt_iff.mpr (h2 ▸ hlt)

theorem hcGo_lt_trans {a b c : List Nat} {n : Nat} (h1 : hcGo a b n = .lt)
    (h2 : hcGo b c n = .lt) : hcGo a c n = .lt := by
  rw [hcGo_lt_iff] at h1 h2 ⊢
  obtain ⟨i, hi, hilt, hiall⟩ := h1
  obtain ⟨k, hk, hklt, hkall⟩ := h2
  rcases lt_trichotomy i k with h | h | h
  · refine ⟨k, hk, ?_, fun j hkj hj => ?_⟩
    · rw [hiall k h hk]
      exact hklt
    · rw [hiall j (h.trans hkj) hj, hkall j hkj hj]
  · subst h
    refine ⟨i, hi, Nat.lt_trans hilt hklt, fun j hij hj => ?_⟩
    rw [hiall j hij hj, hkall j hij hj]
  · refine ⟨i, hi, ?_, fun j hij hj => ?_⟩
    · rw [← hkall i h hi]
      exact hilt
    · rw [hiall j hij hj, hkall j (h.trans hij) hj]

theorem hcGo_eq_trans {a b c : List Nat} {n : Nat} (h1 : hcGo a b n = .eq)
    (h2 : hcGo b c n = .eq) : hcGo a c n = .eq := by
  rw [hcGo_eq_iff] at h1 h2 ⊢
  intro i hi
  rw [h1 i hi, h2 i hi]

theorem hcGo_lt_eq {a b c : List Nat} {n : Nat} (h1 : hcGo a b n = .lt)
    (h2 : hcGo b c n = .eq) : hcGo a c n = .lt := by
  rw [hcGo_lt_iff] at h1 ⊢
  rw [hcGo_eq_iff] at h2
  obtain ⟨i, hi, hilt, hiall⟩ := h1
  refine ⟨i, hi, by rw [← h2 i hi]; exact hilt, fun j hij hj => ?_⟩
  rw [hiall j hij hj, h2 j hj]

theorem hcGo_eq_lt {a b c : List Nat} {n : Nat} (h1 : hcGo a b n = .eq)
    (h2 : hcGo b c n = .lt) : hcGo a c n = .lt := by
  rw [hcGo_lt_iff] at h2 ⊢
  rw [hcGo_eq_iff] at h1
  obtain ⟨k, hk, hklt, hkall⟩ := h2
  refine ⟨k, hk, by rw [h1 k hk]; exact hklt, fun j hkj hj => ?_⟩
  rw [h1 j hj, hkall j hkj hj]

theorem straightNormalize_length {d : List Nat} (h : d.length = 5) :
    (straightNormalize d).length = 5 := by
  unfold straightNormalize
  split <;> simp [h]

theorem payloadKey_length_eq {a b : HandType} (ha : WFt a) (hb : WFt b)
    (hr : a.rank = b.rank) : (payloadKey a).length = (payloadKey b).length := by
  cases a <;> cases b <;>
    simp_all [HandType.rank, WFt, payloadKey, straightNormalize_length]

theorem hcGo_congr {a b a2 b2 : List Nat} {n : Nat}
    (ha : ∀ i, i < n → a.getD i 0 = a2.getD i 0)
    (hb : ∀ i, i < n → b.getD i 0 = b2.getD i 0) :
    hcGo a b n = hcGo a2 b2 n := by
  induction n with
  | zero => rfl
  | succ n ih =>
    rw [hcGo_succ, hcGo_succ, ha n (by omega), hb n (by omega),
      ih (fun i hi => ha i (by omega)) (fun i hi => hb i (by omega))]

theorem hcGo_append_last {r s : List Nat} {p q : Nat} {n : Nat}
    (hr : r.length = n) (hs : s.length = n) :
    hcGo (r ++ [p]) (s ++ [q]) (n + 1) = (natCmp p q).then (hcGo r s n) := by
  rw [hcGo_succ]
  have h1 : (r ++ [p]).getD n 0 = p := by
    rw [List.getD_append_right r [p] 0 n (by omega)]
    simp [hr]
  have h2 : (s ++ [q]).getD n 0 = q := by
    rw [List.getD_append_right s [q] 0 n (by omega)]
    simp [hs]
  rw [h1, h2]
  have h3 : hcGo (r ++ [p]) (s ++ [q]) n = hcGo r s n :=
    hcGo_congr (fun i hi => List.getD_append r [p] 0 i (by omega))
      (fun i hi => List.getD_append s [q] 0 i (by omega))
  rw [h3]

theorem hcGo_zero (a b : List Nat) : hcGo a b 0 = .eq := rfl

theorem hcGo_one (x y : Nat) : hcGo [x] [y] 1 = natCmp x y := by
  have h := hcGo_append_last (r := []) (s := []) (p := x) (q := y) rfl rfl
  simpa [then_eq_right, hcGo_zero] using h

theorem hcGo_two (x0 x1 y0 y1 : Nat) :
    hcGo [x0, x1] [y0, y1] 2 = (natCmp x1 y1).then (natCmp x0 y0) := by
  have h := hcGo_append_last (r := [x0]) (s := [y0]) (p := x1) (q := y1) rfl rfl
  simpa [hcGo_one] using h

theorem hcGo_three (x0 x1 x2 y0 y1 y2 : Nat) :
    hcGo [x0, x1, x2] [y0, y1, y2] 3 =
      (natCmp x2 y2).then ((natCmp x1 y1).then (natCmp x0 y0)) := by
  have h := hcGo_append_last (r := [x0, x1]) (s := [y0, y1]) (p := x2) (q := y2) rfl rfl
  simpa [hcGo_two] using h

theorem hcGo_four (x0 x1 x2 x3 y0 y1 y2 y3 : Nat) :
    hcGo [x0, x1, x2, x3] [y0, y1, y2, y3] 4 =
      (natCmp x3 y3).then ((natCmp x2 y2).then ((natCmp x1 y1).then (natCmp x0 y0))) := by
  have h := hcGo_append_last (r := [x0, x1, x2]) (s := [y0, y1, y2]) (p := x3) (q := y3)
    rfl rfl
  simpa [hcGo_three] using h

theorem handTypeCmp_key {a b : HandType} (ha : WFt a) (hb : WFt b) (hr : a.rank = b.rank) :
    handTypeCmp a b = hcGo (payloadKey a) (payloadKey b) (payloadKey a).length := by
  cases a <;> cases b <;> simp_all [HandType.rank, WFt]
  case StraightFlush.StraightFlush d1 d2 =>
    simp [handTypeCmp, payloadKey, highCardDataCmp, ha]
  case FourOfAKind.FourOfAKind v1 k1 v2 k2 =>
    simp [handTypeCmp, payloadKey, hcGo_two]
  case FullHouse.FullHouse t1 p1 t2 p2 =>
    simp [handTypeCmp, payloadKey, hcGo_two]
  case Flush.Flush d1 d2 =>
    simp [handTypeCmp, payloadKey, highCardDataCmp, ha]
  case Straight.Straight d1 d2 =>
    simp [handTypeCmp, payloadKey, straightDataCmp, highCardDataCmp]
  case ThreeOfAKind.ThreeOfAKind t1 r1 t2 r2 =>
    obtain ⟨a0, a1, rfl⟩ := List.length_eq_two.mp ha
    obtain ⟨b0, b1, rfl⟩ := List.length_eq_two.mp hb
    simp [handTypeCmp, payloadKey, highCardDataCmp, hcGo_two, hcGo_three]
  case TwoPairs.TwoPairs h1 l1 k1 h2 l2 k2 =>
    simp [handTypeCmp, payloadKey, hcGo_three]
  case OnePair.OnePair p1 r1 p2 r2 =>
    obtain ⟨a0, a1, a2, rfl⟩ := List.length_eq_three.mp ha
    obtain ⟨b0, b1, b2, rfl⟩ := List.length_eq_three.mp hb
    simp [handTypeCmp, payloadKey, highCardDataCmp, hcGo_three, hcGo_four]
  case HighCard.HighCard d1 d2 =>
    simp [handTypeCmp, payloadKey, highCardDataCmp, ha]

theorem pokerHandCmp_char {a b : HandType} (ha : WFt a) (hb : WFt b) :
    pokerHandCmp a b =
      if a.rank = b.rank then hcGo (payloadKey a) (payloadKey b) (payloadKey a).length
      else natCmp a.rank b.rank := by
  unfold pokerHandCmp
  by_cases h : a.rank = b.rank
  · rw [if_pos h, h, natCmp_self,
      show (Ordering.eq).then (handTypeCmp a b) = handTypeCmp a b from rfl]
    exact handTypeCmp_key ha hb h
  · rw [if_neg h, then_eq_of_ne (natCmp_eq_iff.not.mpr h)]

theorem pokerHandCmp_swap {a b : HandType} (ha : WFt a) (hb : WFt b) :
    pokerHandCmp b a = (pokerHandCmp a b).swap := by
  rw [pokerHandCmp_char hb ha, pokerHandCmp_char ha hb]
  by_cases h : a.rank = b.rank
  · rw [if_pos h.symm, if_pos h, payloadKey_length_eq hb ha h.symm, hcGo_swap]
  · rw [if_neg (fun hc => h hc.symm), if_neg h, natCmp_swap]

theorem pokerHandCmp_lt_trans {a b c : HandType} (ha : WFt a) (hb : WFt b) (hc : WFt c)
    (h1 : pokerHandCmp a b = .lt) (h2 : pokerHandCmp b c = .lt) :
    pokerHandCmp a c = .lt := by
  rw [pokerHandCmp_char ha hb] at h1
  rw [pokerHandCmp_char hb hc] at h2
  rw [pokerHandCmp_char ha hc]
  by_cases hab : a.rank = b.rank <;> by_cases hbc : b.rank = c.rank
  · rw [if_pos hab] at h1
    rw [if_pos hbc] at h2
    rw [if_pos (hab.trans hbc)]
    rw [← payloadKey_length_eq ha hb hab] at h2
    exact hcGo_lt_trans h1 h2
  · rw [if_pos hab] at h1
    rw [if_neg hbc] at h2
    have hblt := natCmp_lt_iff.mp h2
    rw [if_neg (by omega : ¬ a.rank = c.rank)]
    exact natCmp_lt_iff.mpr (by omega)
  · rw [if_neg hab] at h1
    rw [if_pos hbc] at h2
    have halt := natCmp_lt_iff.mp h1
    rw [if_neg (by omega : ¬ a.rank = c.rank)]
    exact natCmp_lt_iff.mpr (by omega)
  · rw [if_neg hab] at h1
    rw [if_neg hbc] at h2
    have l1 := natCmp_lt_iff.mp h1
    have l2 := natCmp_lt_iff.mp h2
    rw [if_neg (by omega : ¬ a.rank = c.rank)]
    exact natCmp_lt_iff.mpr (by omega)

theorem pokerHandCmp_eq_trans {a b c : HandType} (ha : WFt a) (hb : WFt b) (hc : WFt c)
    (h1 : pokerHandCmp a b = .eq) (h2 : pokerHandCmp b c = .eq) :
    pokerHandCmp a c = .eq := by
  rw [pokerHandCmp_char ha hb] at h1
  rw [pokerHandCmp_char hb hc] at h2
  rw [pokerHandCmp_char ha hc]
  by_cases hab : a.rank = b.rank
  · by_cases hbc : b.rank = c.rank
    · rw [if_pos hab] at h1
      rw [if_pos hbc] at h2
      rw [if_pos (hab.trans hbc)]
      rw [← payloadKey_length_eq ha hb hab] at h2
      exact hcGo_eq_trans h1 h2
    · rw [if_neg hbc] at h2
      exact absurd (natCmp_eq_iff.mp h2) hbc
  · rw [if_neg hab] at h1
    exact absurd (natCmp_eq_iff.mp h1) hab

theorem pokerHandCmp_lt_eq {a b c : HandType} (ha : WFt a) (hb : WFt b) (hc : WFt c)
    (h1 : pokerHandCmp a b = .lt) (h2 : pokerHandCmp b c = .eq) :
    pokerHandCmp a c = .lt := by
  rw [pokerHandCmp_char ha hb] at h1
  rw [pokerHandCmp_char hb hc] at h2
  rw [pokerHandCmp_char ha hc]
  by_cases hbc : b.rank = c.rank
  · by_cases hab : a.rank = b.rank
    · rw [if_pos hab] at h1
      rw [if_pos hbc] at h2
      rw [if_pos (hab.trans hbc)]
      rw [← payloadKey_length_eq ha hb hab] at h2
      exact hcGo_lt_eq h1 h2
    · rw [if_neg hab] at h1
      have l1 := natCmp_lt_iff.mp h1
      rw [if_neg (by omega : ¬ a.rank = c.rank)]
      exact natCmp_lt_iff.mpr (by omega)
  · rw [if_neg hbc] at h2
    exact absurd (natCmp_eq_iff.mp h2) hbc

theorem pokerHandCmp_eq_lt {a b c : HandType} (ha : WFt a) (hb : WFt b) (hc : WFt c)
    (h1 : pokerHandCmp a b = .eq) (h2 : pokerHandCmp b c = .lt) :
    pokerHandCmp a c = .lt := by
  rw [pokerHandCmp_char ha hb] at h1
  rw [pokerHandCmp_char hb hc] at h2
  rw [pokerHandCmp_char ha hc]
  by_cases hab : a.rank = b.rank
  · by_cases hbc : b.rank = c.rank
    · rw [if_pos hab] at h1
      rw [if_pos hbc] at h2
      rw [if_pos (hab.trans hbc)]
      rw [← payloadKey_length_eq ha hb hab] at h2
      exact hcGo_eq_lt h1 h2
    · rw [if_neg hbc] at h2
      have l2 := natCmp_lt_iff.mp h2
      rw [if_neg (by omega : ¬ a.rank = c.rank)]
      exact natCmp_lt_iff.mpr (by omega)
  · rw [if_neg hab] at h1
    exact absurd (natCmp_eq_iff.mp h1) hab

/-! ## Counting and parsing facts used by the classification invariants -/

theorem length_filter_ne (l : List Nat) (k : Nat) :
    (l.filter (fun v => v != k)).length + l.count k = l.length := by
  induction l with
  | nil => rfl
  | cons a l ih =>
    by_cases h : a = k <;>
      simp [List.filter_cons, List.count_cons, h, bne_iff_ne] <;> omega

theorem length_filter_ne_two (l : List Nat) (k1 k2 : Nat) (hk : k1 ≠ k2) :
    (l.filter (fun v => v != k1 && v != k2)).length + l.count k1 + l.count k2 = l.length := by
  induction l with
  | nil => rfl
  | cons a l ih =>
    by_cases h1 : a = k1 <;> by_cases h2 : a = k2 <;>
      simp [List.filter_cons, List.count_cons, h1, h2, bne_iff_ne, hk] <;> omega

theorem parseCards_ok_length : ∀ {ts : List (List Char)} {cs : List Card},
    parseCards ts = .ok cs → cs.length = ts.length := by
  intro ts
  induction ts with
  | nil =>
    intro cs h
    cases h
    rfl
  | cons t ts ih =>
    intro cs h
    unfold parseCards at h
    cases hc : Card.new t with
    | error e =>
      rw [hc] at h
      cases e <;> simp at h
    | ok c =>
      rw [hc] at h
      cases hp : parseCards ts with
      | error e =>
        rw [hp] at h
        simp at h
      | ok cs2 =>
        rw [hp] at h
        cases h
        simp [ih hp]

theorem insertCard_perm (x : Card) (l : List Card) : (insertCard x l).Perm (x :: l) := by
  induction l with
  | nil => exact List.Perm.refl _
  | cons y ys ih =>
    unfold insertCard
    by_cases h : x.numeric_value < y.numeric_value
    · rw [if_pos h]
    · rw [if_neg h]
      exact (ih.cons y).trans (List.Perm.swap x y ys)

theorem foldl_insertCard_perm : ∀ (l acc : List Card),
    (l.foldl (fun acc x => insertCard x acc) acc).Perm (acc ++ l) := by
  intro l
  induction l with
  | nil => simp
  | cons x l ih =>
    intro acc
    have h1 : ((x :: l).foldl (fun acc x => insertCard x acc) acc)
        = l.foldl (fun acc x => insertCard x acc) (insertCard x acc) := rfl
    rw [h1]
    exact (ih _).trans
      (((insertCard_perm x acc).append_right l).trans List.perm_middle.symm)

theorem sortCards_perm (l : List Card) : (sortCards l).Perm l := by
  simpa using foldl_insertCard_perm l []

set_option maxHeartbeats 1000000 in
theorem classifySorted_wf {cards : List Card} (h5 : cards.length = 5) {t : HandType}
    (h : classifySorted cards = .ok t) : WFt t := by
  cases cards with
  | nil => simp at h5
  | cons first rest =>
    have hv : ((first :: rest).map (fun c => c.numeric_value)).length = 5 := by
      simpa using h5
    unfold classifySorted at h
    dsimp only at h
    split at h
    all_goals (try (split at h))
    all_goals (try (split at h))
    all_goals (try (split at h))
    all_goals (try (split at h))
    all_goals (try (split at h))
    all_goals (try (split at h))
    all_goals try (simp at h)
    all_goals (cases h)
    all_goals (first
      | trivial
      | (simp only [WFt]; simpa using hv)
      | (rename_i tv heq3 hp1
         simp only [WFt]
         have h3 : List.count tv ((first :: rest).map (fun c => c.numeric_value)) = 3 := by
           simpa using List.find?_some heq3
         have hlf := length_filter_ne ((first :: rest).map (fun c => c.numeric_value)) tv
         simp only [List.map_cons] at h3 hlf hv ⊢
         omega)
      | (rename_i p tail heqp
         simp only [WFt]
         have hmem : p ∈ List.filter
             (fun k => List.count k ((first :: rest).map (fun c => c.numeric_value)) == 2)
             ((first :: rest).map (fun c => c.numeric_value)).dedup := by
           rw [heqp]
           exact List.mem_cons_self p tail
         have hp2 : List.count p ((first :: rest).map (fun c => c.numeric_value)) = 2 := by
           simpa using (List.mem_filter.mp hmem).2
         have hlf := length_filter_ne ((first :: rest).map (fun c => c.numeric_value)) p
         simp only [List.map_cons] at hp2 hlf hv ⊢
         omega))

theorem pokerHand_new_wf {h : List Char} (h5 : (splitOnSpace h).length = 5) {t : HandType}
    (hok : PokerHand.new h = .ok t) : WFt t := by
  unfold PokerHand.new at hok
  cases hp : parseCards (splitOnSpace h) with
  | error e =>
    rw [hp] at hok
    simp at hok
  | ok cards =>
    rw [hp] at hok
    have hlen : (sortCards cards).length = 5 := by
      rw [(sortCards_perm cards).length_eq, parseCards_ok_length hp, h5]
    exact classifySorted_wf hlen hok

/-! ## C8: the comparator is a total order on classified hands -/

/--
Claim C8: on hands classified from 5-token hand strings, `PokerHand::cmp`
is a total order: comparing in the opposite direction gives the swapped
ordering (so exactly one of greater, less, equal holds, never both
strict directions), the order is antisymmetric (mutually not-less hands
compare equal), and both the strict order and the tie relation are
transitive.
-/
theorem comparator_total_order (h1 h2 h3 : List Char) (t1 t2 t3 : HandType)
    (hl1 : (splitOnSpace h1).length = 5) (hl2 : (splitOnSpace h2).length = 5)
    (hl3 : (splitOnSpace h3).length = 5)
    (ho1 : PokerHand.new h1 = .ok t1) (ho2 : PokerHand.new h2 = .ok t2)
    (ho3 : PokerHand.new h3 = .ok t3) :
    pokerHandCmp t2 t1 = (pokerHandCmp t1 t2).swap ∧
    (pokerHandCmp t1 t2 ≠ .lt ∧ pokerHandCmp t2 t1 ≠ .lt → pokerHandCmp t1 t2 = .eq) ∧
    (pokerHandCmp t1 t2 = .lt → pokerHandCmp t2 t3 = .lt → pokerHandCmp t1 t3 = .lt) ∧
    (pokerHandCmp t1 t2 = .eq → pokerHandCmp t2 t3 = .eq → pokerHandCmp t1 t3 = .eq) := by
  have w1 := pokerHand_new_wf hl1 ho1
  have w2 := pokerHand_new_wf hl2 ho2
  have w3 := pokerHand_new_wf hl3 ho3
  refine ⟨pokerHandCmp_swap w1 w2, ?_, pokerHandCmp_lt_trans w1 w2 w3,
    pokerHandCmp_eq_trans w1 w2 w3⟩
  rintro ⟨hn1, hn2⟩
  cases hcmp : pokerHandCmp t1 t2 with
  | lt => exact absurd hcmp hn1
  | eq => rfl
  | gt =>
    have hs := pokerHandCmp_swap w1 w2
    rw [hcmp] at hs
    exact absurd hs hn2

/-- Witness for `comparator_total_order` at three concrete classified
hands (a high card, a two pairs and a full house). -/
theorem comparator_total_order_witness :
    pokerHandCmp (HandType.TwoPairs 4 2 3) (HandType.HighCard [2, 3, 4, 5, 7]) =
      (pokerHandCmp (HandType.HighCard [2, 3, 4, 5, 7]) (HandType.TwoPairs 4 2 3)).swap ∧
    (pokerHandCmp (HandType.HighCard [2, 3, 4, 5, 7]) (HandType.TwoPairs 4 2 3) ≠ .lt ∧
      pokerHandCmp (HandType.TwoPairs 4 2 3) (HandType.HighCard [2, 3, 4, 5, 7]) ≠ .lt →
      pokerHandCmp (HandType.HighCard [2, 3, 4, 5, 7]) (HandType.TwoPairs 4 2 3) = .eq) ∧
    (pokerHandCmp (HandType.HighCard [2, 3, 4, 5, 7]) (HandType.TwoPairs 4 2 3) = .lt →
      pokerHandCmp (HandType.TwoPairs 4 2 3) (HandType.FullHouse 4 5) = .lt →
      pokerHandCmp (HandType.HighCard [2, 3, 4, 5, 7]) (HandType.FullHouse 4 5) = .lt) ∧
    (pokerHandCmp (HandType.HighCard [2, 3, 4, 5, 7]) (HandType.TwoPairs 4 2 3) = .eq →
      pokerHandCmp (HandType.TwoPairs 4 2 3) (HandType.FullHouse 4 5) = .eq →
      pokerHandCmp (HandType.HighCard [2, 3, 4, 5, 7]) (HandType.FullHouse 4 5) = .eq) :=
  comparator_total_order "2H 3D 4C 5S 7H".data "2S 2C 4S 4C 3S".data "4S 5H 4C 5D 4H".data
    (HandType.HighCard [2, 3, 4, 5, 7]) (HandType.TwoPairs 4 2 3) (HandType.FullHouse 4 5)
    (by decide) (by decide) (by decide) (by decide) (by decide) (by decide)

set_option maxHeartbeats 1000000 in
theorem classifySorted_no_panic {cards : List Card} (h5 : cards.length = 5) :
    isPanicky (classifySorted cards) = false := by
  cases cards with
  | nil => simp at h5
  | cons first rest =>
    have hv : ((first :: rest).map (fun c => c.numeric_value)).length = 5 := by
      simpa using h5
    unfold classifySorted
    dsimp only
    split
    all_goals (try split)
    all_goals (try split)
    all_goals (try split)
    all_goals (try split)
    all_goals (try split)
    all_goals (try split)
    all_goals try rfl
    -- four of a kind with an empty remainder: impossible for 5 values
    · rename_i key heq4 xf heqf
      have h4 : List.count key ((first :: rest).map (fun c => c.numeric_value)) = 4 := by
        simpa using List.find?_some heq4
      have hlf := length_filter_ne ((first :: rest).map (fun c => c.numeric_value)) key
      rw [heqf] at hlf
      simp only [List.length_nil] at hlf
      omega
    -- full house with an empty pairs list: contradicts pair_count == 1
    · rename_i hlen1 xp heqp
      rw [heqp] at hlen1
      simp at hlen1
    -- two pairs with an empty remainder: impossible for 5 values
    · rename_i pairs p0 p1 tail heqp xf heqf
      have hnd : (List.filter
          (fun k => List.count k ((first :: rest).map (fun c => c.numeric_value)) == 2)
          ((first :: rest).map (fun c => c.numeric_value)).dedup).Nodup :=
        (List.nodup_dedup _).filter _
      rw [heqp] at hnd
      have hne : p0 ≠ p1 := by
        intro he
        rw [List.nodup_cons] at hnd
        exact hnd.1 (he ▸ List.mem_cons_self p1 tail)
      have hp0 : List.count p0 ((first :: rest).map (fun c => c.numeric_value)) = 2 := by
        have hm : p0 ∈ List.filter
            (fun k => List.count k ((first :: rest).map (fun c => c.numeric_value)) == 2)
            ((first :: rest).map (fun c => c.numeric_value)).dedup := by
          rw [heqp]
          exact List.mem_cons_self _ _
        simpa using (List.mem_filter.mp hm).2
      have hp1 : List.count p1 ((first :: rest).map (fun c => c.numeric_value)) = 2 := by
        have hm : p1 ∈ List.filter
            (fun k => List.count k ((first :: rest).map (fun c => c.numeric_value)) == 2)
            ((first :: rest).map (fun c => c.numeric_value)).dedup := by
          rw [heqp]
          exact List.mem_cons_of_mem _ (List.mem_cons_self _ _)
        simpa using (List.mem_filter.mp hm).2
      have hmaxmin : ¬ (p0 ⊔ p1 = p0 ⊓ p1) := by omega
      have hlf := length_filter_ne_two ((first :: rest).map (fun c => c.numeric_value))
        (p0 ⊔ p1) (p0 ⊓ p1) hmaxmin
      rw [heqf] at hlf
      simp only [List.length_nil] at hlf
      have hcmax : List.count (p0 ⊔ p1) ((first :: rest).map (fun c => c.numeric_value)) = 2 := by
        rcases max_choice p0 p1 with hm | hm <;> rw [hm] <;> assumption
      have hcmin : List.count (p0 ⊓ p1) ((first :: rest).map (fun c => c.numeric_value)) = 2 := by
        rcases min_choice p0 p1 with hm | hm <;> rw [hm] <;> assumption
      omega
    -- two pairs whose pairs list does not have two heads: contradicts pair_count == 2
    · rename_i hlen2 pairs hnc
      have h2 : (List.filter
          (fun k => List.count k ((first :: rest).map (fun c => c.numeric_value)) == 2)
          ((first :: rest).map (fun c => c.numeric_value)).dedup).length = 2 := by
        simpa using hlen2
      obtain ⟨a, b, hab⟩ := List.length_eq_two.mp h2
      exact (hnc a b [] hab).elim
    -- one pair whose pairs list has no head: contradicts pair_count == 1
    · rename_i hn2 hlen1 pairs hnc
      have h1 : (List.filter
          (fun k => List.count k ((first :: rest).map (fun c => c.numeric_value)) == 2)
          ((first :: rest).map (fun c => c.numeric_value)).dedup).length = 1 := by
        simpa using hlen1
      obtain ⟨a, ha⟩ := List.length_eq_one.mp h1
      exact (hnc a [] ha).elim

theorem byteLen_ascii {s : List Char} (h : asciiStr s = true) : byteLen s = s.length := by
  induction s with
  | nil => rfl
  | cons c cs ih =>
    simp only [asciiStr, List.all_cons, Bool.and_eq_true, beq_iff_eq] at h
    have ihh := ih (by simp [asciiStr, h.2])
    simp only [byteLen, List.map_cons, List.sum_cons, List.length_cons] at ihh ⊢
    rw [h.1]
    omega

theorem charBoundaryAt2_ascii {t : List Char} (h : asciiStr t = true) (h2 : 2 ≤ t.length) :
    charBoundaryAt2 t = true := by
  rcases t with _ | ⟨c1, _ | ⟨c2, rest⟩⟩
  · simp at h2
  · simp at h2
  · simp only [asciiStr, List.all_cons, Bool.and_eq_true, beq_iff_eq] at h
    simp [charBoundaryAt2, h.1, h.2.1]

theorem card_new_no_panic {t : List Char} (h : asciiStr t = true) :
    isPanicky (Card.new t) = false := by
  have hb : byteLen t = t.length := byteLen_ascii h
  unfold Card.new
  dsimp only
  split
  all_goals (try split)
  all_goals (try split)
  all_goals (try split)
  all_goals (try split)
  all_goals try rfl
  · rename_i e heq
    split at heq
    all_goals (try (split at heq))
    all_goals (try (split at heq))
    all_goals try (simp at heq)
    all_goals (first
      | (cases heq; rfl)
      | (exact absurd ‹byteLen ([] : List Char) = 2› (by decide))
      | (exact absurd (charBoundaryAt2_ascii h (by
          have h2 := not_not.mp ‹¬¬(2 ≤ byteLen t ∧ byteLen t ≤ 3)›
          omega)) ‹¬charBoundaryAt2 t = true›))
  · rename_i value e hval heq
    split at heq
    all_goals (try (split at heq))
    all_goals (try (split at heq))
    all_goals (try (split at heq))
    all_goals (try (split at heq))
    all_goals (try (split at heq))
    all_goals try (simp at heq)
    all_goals (cases heq; rfl)
  · have h1 := List.get?_eq_none.mp ‹t.get? (byteLen t - 1) = none›
    have h2 := not_not.mp ‹¬¬(2 ≤ byteLen t ∧ byteLen t ≤ 3)›
    omega

theorem splitOnSpace_ascii : ∀ {s : List Char}, asciiStr s = true →
    ∀ t ∈ splitOnSpace s, asciiStr t = true := by
  intro s
  induction s with
  | nil =>
    intro _ t ht
    simp [splitOnSpace] at ht
    simp [ht, asciiStr]
  | cons c cs ih =>
    intro h t ht
    simp only [asciiStr, List.all_cons, Bool.and_eq_true] at h
    have hc := h.1
    have hcs : asciiStr cs = true := h.2
    unfold splitOnSpace at ht
    by_cases hsp : c = ' '
    · rw [if_pos hsp] at ht
      rcases List.mem_cons.mp ht with rfl | hmem
      · rfl
      · exact ih hcs t hmem
    · rw [if_neg hsp] at ht
      cases hrec : splitOnSpace cs with
      | nil =>
        rw [hrec] at ht
        rcases List.mem_cons.mp ht with rfl | hmem
        · simp [asciiStr, hc]
        · simp at hmem
      | cons r rs =>
        rw [hrec] at ht
        rcases List.mem_cons.mp ht with rfl | hmem
        · have hr : asciiStr r = true := ih hcs r (hrec ▸ List.mem_cons_self r rs)
          simp only [asciiStr, List.all_cons, Bool.and_eq_true]
          exact ⟨hc, hr⟩
        · exact ih hcs t (hrec ▸ List.mem_cons_of_mem r hmem)

theorem parseCards_no_panic {ts : List (List Char)} (h : ∀ t ∈ ts, asciiStr t = true) :
    isPanicky (parseCards ts) = false := by
  induction ts with
  | nil => rfl
  | cons t ts ih =>
    unfold parseCards
    cases hc : Card.new t with
    | error e =>
      cases e with
      | panic m =>
        have hcn := card_new_no_panic (h t (List.mem_cons_self t ts))
        rw [hc] at hcn
        simp [isPanicky] at hcn
      | err m => rfl
    | ok c =>
      cases hp : parseCards ts with
      | error e =>
        have hih := ih (fun y hy => h y (List.mem_cons_of_mem t hy))
        rw [hp] at hih
        cases e with
        | panic m => simp [isPanicky] at hih
        | err m => rfl
      | ok cs => rfl

theorem pokerHand_new_no_panic {x : List Char} (ha : asciiStr x = true)
    (h5 : (splitOnSpace x).length = 5) : isPanicky (PokerHand.new x) = false := by
  unfold PokerHand.new
  cases hp : parseCards (splitOnSpace x) with
  | error e =>
    have hpc := parseCards_no_panic (splitOnSpace_ascii ha)
    rw [hp] at hpc
    cases e with
    | panic m => simp [isPanicky] at hpc
    | err m => rfl
  | ok cards =>
    exact classifySorted_no_panic
      (by rw [(sortCards_perm cards).length_eq, parseCards_ok_length hp, h5])

theorem insertHand_perm (x : List Char × HandType) (l : List (List Char × HandType)) :
    (insertHand x l).Perm (x :: l) := by
  induction l with
  | nil => exact List.Perm.refl _
  | cons y ys ih =>
    unfold insertHand
    by_cases h : pokerHandCmp x.2 y.2 == Ordering.lt
    · rw [if_pos h]
    · rw [if_neg h]
      exact (ih.cons y).trans (List.Perm.swap x y ys)

theorem foldl_insertHand_perm : ∀ (l acc : List (List Char × HandType)),
    (l.foldl (fun acc x => insertHand x acc) acc).Perm (acc ++ l) := by
  intro l
  induction l with
  | nil => simp
  | cons x l ih =>
    intro acc
    have h1 : ((x :: l).foldl (fun acc x => insertHand x acc) acc)
        = l.foldl (fun acc x => insertHand x acc) (insertHand x acc) := rfl
    rw [h1]
    exact (ih _).trans
      (((insertHand_perm x acc).append_right l).trans List.perm_middle.symm)

theorem sortHands_perm (l : List (List Char × HandType)) : (sortHands l).Perm l := by
  simpa using foldl_insertHand_perm l []

theorem processHands_ok {hs : List (List Char)}
    (h : ∀ x ∈ hs, isPanicky (PokerHand.new x) = false) :
    ∃ r, processHands hs = .ok r := by
  induction hs with
  | nil => exact ⟨some [], rfl⟩
  | cons x hs ih =>
    unfold processHands
    cases hx : PokerHand.new x with
    | error e =>
      cases e with
      | panic m =>
        have hh := h x (List.mem_cons_self x hs)
        rw [hx] at hh
        simp [isPanicky] at hh
      | err m => exact ⟨none, rfl⟩
    | ok ht =>
      obtain ⟨r, hr⟩ := ih (fun y hy => h y (List.mem_cons_of_mem x hy))
      rw [hr]
      cases r with
      | none => exact ⟨none, rfl⟩
      | some ps => exact ⟨some ((x, ht) :: ps), rfl⟩

theorem processHands_some : ∀ {hs : List (List Char)} {ps},
    processHands hs = .ok (some ps) →
    ps.map Prod.fst = hs ∧ ∀ p ∈ ps, PokerHand.new p.1 = .ok p.2 := by
  intro hs
  induction hs with
  | nil =>
    intro ps h
    cases h
    exact ⟨rfl, by simp⟩
  | cons x hs ih =>
    intro ps h
    unfold processHands at h
    cases hx : PokerHand.new x with
    | error e =>
      rw [hx] at h
      cases e <;> simp at h
    | ok ht =>
      rw [hx] at h
      cases hp : processHands hs with
      | error m =>
        rw [hp] at h
        simp at h
      | ok r =>
        rw [hp] at h
        cases r with
        | none => simp at h
        | some ps2 =>
          cases h
          obtain ⟨h1, h2⟩ := ih hp
          refine ⟨by simp [h1], ?_⟩
          intro p hp2
          rcases List.mem_cons.mp hp2 with rfl | hm
          · exact hx
          · exact h2 p hm

theorem processHands_none_iff {hs : List (List Char)}
    (h : ∀ x ∈ hs, isPanicky (PokerHand.new x) = false) :
    (processHands hs = .ok none ↔ ∃ x ∈ hs, isErrB (PokerHand.new x) = true) := by
  induction hs with
  | nil => simp [processHands]
  | cons x hs ih =>
    have htail : ∀ y ∈ hs, isPanicky (PokerHand.new y) = false :=
      fun y hy => h y (List.mem_cons_of_mem x hy)
    unfold processHands
    cases hx : PokerHand.new x with
    | error e =>
      cases e with
      | panic m =>
        have hh := h x (List.mem_cons_self x hs)
        rw [hx] at hh
        simp [isPanicky] at hh
      | err m =>
        constructor
        · intro _
          exact ⟨x, List.mem_cons_self x hs, by rw [hx]; rfl⟩
        · intro _
          rfl
    | ok ht =>
      cases hp : processHands hs with
      | error m =>
        obtain ⟨r, hr⟩ := processHands_ok htail
        rw [hp] at hr
        simp at hr
      | ok r =>
        cases r with
        | none =>
          constructor
          · intro _
            obtain ⟨y, hy, hyerr⟩ := (ih htail).mp hp
            exact ⟨y, List.mem_cons_of_mem x hy, hyerr⟩
          · intro _
            rfl
        | some ps =>
          constructor
          · intro hcon
            simp at hcon
          · rintro ⟨y, hy, hyerr⟩
            rcases List.mem_cons.mp hy with rfl | hm
            · rw [hx] at hyerr
              simp [isErrB] at hyerr
            · have := (ih htail).mpr ⟨y, hm, hyerr⟩
              rw [hp] at this
              simp at this

/-- Unfolding of `winningHands` on a batch of at least two hands: the
match on the batch reduces to the process/sort/reverse/collect chain. -/
theorem winningHands_cons2 (x1 x2 : List Char) (rest : List (List Char)) :
    winningHands (x1 :: x2 :: rest) =
      match processHands (x1 :: x2 :: rest) with
      | .error m => .error m
      | .ok none => .ok none
      | .ok (some ps) =>
        match (sortHands ps).reverse with
        | [] => .error "index out of bounds"
        | top :: rest2 =>
          .ok (some (top.1 ::
            (rest2.takeWhile (fun (p : List Char × HandType) =>
              pokerHandCmp p.2 top.2 == Ordering.eq)).map
              (fun (p : List Char × HandType) => p.1))) := rfl

theorem winningHands_of_err {x1 x2 : List Char} {rest : List (List Char)} {m : String}
    (hp : processHands (x1 :: x2 :: rest) = .error m) :
    winningHands (x1 :: x2 :: rest) = .error m := by
  rw [winningHands_cons2, hp]

theorem winningHands_of_none {x1 x2 : List Char} {rest : List (List Char)}
    (hp : processHands (x1 :: x2 :: rest) = .ok none) :
    winningHands (x1 :: x2 :: rest) = .ok none := by
  rw [winningHands_cons2, hp]

theorem winningHands_of_some {x1 x2 : List Char} {rest : List (List Char)}
    {ps : List (List Char × HandType)} {top : List Char × HandType}
    {rest2 : List (List Char × HandType)}
    (hp : processHands (x1 :: x2 :: rest) = .ok (some ps))
    (hrev : (sortHands ps).reverse = top :: rest2) :
    winningHands (x1 :: x2 :: rest) = .ok (some (top.1 ::
      (rest2.takeWhile (fun (p : List Char × HandType) =>
        pokerHandCmp p.2 top.2 == Ordering.eq)).map
        (fun (p : List Char × HandType) => p.1))) := by
  rw [winningHands_cons2, hp]
  show (match (sortHands ps).reverse with
    | [] => (Except.error "index out of bounds" : Except String (Option (List (List Char))))
    | top :: rest2 =>
      .ok (some (top.1 ::
        (rest2.takeWhile (fun (p : List Char × HandType) =>
          pokerHandCmp p.2 top.2 == Ordering.eq)).map
          (fun (p : List Char × HandType) => p.1)))) = _
  rw [hrev]

theorem sortHands_reverse_cons {x1 x2 : List Char} {rest : List (List Char)}
    {ps : List (List Char × HandType)}
    (hp : processHands (x1 :: x2 :: rest) = .ok (some ps)) :
    ∃ top rest2, (sortHands ps).reverse = top :: rest2 := by
  have hplen : ps.length = rest.length + 2 := by
    have hh := congrArg List.length (processHands_some hp).1
    simpa using hh
  cases hrev : (sortHands ps).reverse with
  | nil =>
    exfalso
    have hh := congrArg List.length hrev
    rw [List.length_reverse, (sortHands_perm ps).length_eq] at hh
    simp [hplen] at hh
  | cons top rest2 => exact ⟨top, rest2, rfl⟩

/--
Claim C10 (amended): for every batch in which every hand string is ASCII
and splits into exactly 5 tokens, `winning_hands` is total — it returns
a value (`Some` or `None`) and never reaches a panicking slice or index
— and every classified hand carries the variant-determined payload
length, so every same-category payload comparison indexes within both
payload vectors.
-/
theorem ascii_five_token_total (hs : List (List Char))
    (h : ∀ x ∈ hs, asciiStr x = true ∧ (splitOnSpace x).length = 5) :
    (∃ r, winningHands hs = .ok r) ∧
    (∀ x ∈ hs, ∀ t, PokerHand.new x = .ok t → WFt t) := by
  refine ⟨?_, fun x hx t ht => pokerHand_new_wf (h x hx).2 ht⟩
  match hs, h with
  | [], _ => exact ⟨none, rfl⟩
  | [x], _ => exact ⟨some [x], rfl⟩
  | x1 :: x2 :: rest, h =>
    have hnp : ∀ x ∈ x1 :: x2 :: rest, isPanicky (PokerHand.new x) = false :=
      fun x hx => pokerHand_new_no_panic (h x hx).1 (h x hx).2
    obtain ⟨r, hr⟩ := processHands_ok hnp
    cases r with
    | none => exact ⟨none, winningHands_of_none hr⟩
    | some ps =>
      obtain ⟨top, rest2, hrev⟩ := sortHands_reverse_cons hr
      exact ⟨_, winningHands_of_some hr hrev⟩

/-- Witness for `ascii_five_token_total` at a concrete two-hand batch. -/
theorem ascii_five_token_total_witness :
    ((∃ r, winningHands ["2H 3D 4C 5S 7H".data, "4S 5H 4C 5D 4H".data] = .ok r) ∧
    (∀ x ∈ (["2H 3D 4C 5S 7H".data, "4S 5H 4C 5D 4H".data] : List (List Char)),
      ∀ t, PokerHand.new x = .ok t → WFt t)) :=
  ascii_five_token_total ["2H 3D 4C 5S 7H".data, "4S 5H 4C 5D 4H".data] (by decide)

/--
Claim C4 (amended): provided no hand in the batch triggers a
parse-or-classification panic, `winning_hands` returns `None` iff the
batch is empty, or the batch has at least two hands and some hand fails
to parse; a batch of exactly one hand is returned as `Some` without any
parsing, and any single card-parse error in a batch of two or more
hands aborts the whole batch with the single absent result.
-/
theorem none_iff_parse_failure (hs : List (List Char))
    (hnp : ∀ x ∈ hs, isPanicky (PokerHand.new x) = false) :
    (winningHands hs = .ok none ↔
      hs = [] ∨ (2 ≤ hs.length ∧ ∃ x ∈ hs, isErrB (PokerHand.new x) = true)) := by
  match hs, hnp with
  | [], _ => simp [winningHands]
  | [x], _ => simp [winningHands]
  | x1 :: x2 :: rest, hnp =>
    have hiff := processHands_none_iff hnp
    cases hp : processHands (x1 :: x2 :: rest) with
    | error m =>
      obtain ⟨r, hr⟩ := processHands_ok hnp
      rw [hp] at hr
      simp at hr
    | ok r =>
      cases r with
      | none =>
        rw [winningHands_of_none hp]
        constructor
        · intro _
          exact Or.inr ⟨by simp, hiff.mp hp⟩
        · intro _
          rfl
      | some ps =>
        have hne : ¬ ∃ x ∈ x1 :: x2 :: rest, isErrB (PokerHand.new x) = true := by
          intro hcon
          have hc2 := hiff.mpr hcon
          rw [hp] at hc2
          simp at hc2
        obtain ⟨top, rest2, hrev⟩ := sortHands_reverse_cons hp
        rw [winningHands_of_some hp hrev]
        constructor
        · intro hcon
          simp at hcon
        · rintro (hempty | ⟨-, hex⟩)
          · simp at hempty
          · exact absurd hex hne

/-- Witness for `none_iff_parse_failure` at a concrete batch with one
valid hand and one unparseable hand: the result is `None` and the right
side of the equivalence holds. -/
theorem none_iff_parse_failure_witness :
    (winningHands ["2H 3D 4C 5S 7H".data, "XX".data] = .ok none ↔
      (["2H 3D 4C 5S 7H".data, "XX".data] : List (List Char)) = [] ∨
      (2 ≤ (["2H 3D 4C 5S 7H".data, "XX".data] : List (List Char)).length ∧
        ∃ x ∈ (["2H 3D 4C 5S 7H".data, "XX".data] : List (List Char)),
          isErrB (PokerHand.new x) = true)) :=
  none_iff_parse_failure ["2H 3D 4C 5S 7H".data, "XX".data] (by decide)

theorem parseCards_err : ∀ {ts : List (List Char)} {m : String},
    parseCards ts = .error (.err m) →
    m = "Cannot create card" ∧ ∃ t ∈ ts, isErrB (Card.new t) = true := by
  intro ts
  induction ts with
  | nil =>
    intro m h
    simp [parseCards] at h
  | cons t ts ih =>
    intro m h
    unfold parseCards at h
    cases hc : Card.new t with
    | error e =>
      rw [hc] at h
      cases e with
      | panic m2 => simp at h
      | err m2 =>
        cases h
        refine ⟨rfl, t, List.mem_cons_self t ts, ?_⟩
        rw [hc]
        rfl
    | ok c =>
      rw [hc] at h
      cases hp2 : parseCards ts with
      | error e =>
        rw [hp2] at h
        cases e with
        | panic m2 => simp at h
        | err m2 =>
          cases h
          obtain ⟨hm, tt, htt, herr⟩ := ih hp2
          exact ⟨hm, tt, List.mem_cons_of_mem t htt, herr⟩
      | ok cs =>
        rw [hp2] at h
        simp at h

theorem classifySorted_err_panic {cards : List Card} {f : Failure}
    (h : classifySorted cards = .error f) : ∃ m, f = .panic m := by
  unfold classifySorted at h
  cases cards with
  | nil =>
    cases h
    exact ⟨_, rfl⟩
  | cons first rest =>
    dsimp only at h
    split at h
    all_goals (try (split at h))
    all_goals (try (split at h))
    all_goals (try (split at h))
    all_goals (try (split at h))
    all_goals (try (split at h))
    all_goals (try (split at h))
    all_goals (first
      | (cases h; exact ⟨_, rfl⟩)
      | (simp at h))

/--
Claim C6 (amended): hand processing performs no token-count check and
has no `MalformedHand` failure: the only error `PokerHand::new` can
return is the generic `"Cannot create card"`, and it does so exactly
when some individual token of the hand fails card parsing; a hand of 4
or 6 tokens whose tokens all parse is classified normally (see the
accompanying counterexample for a present winning result over such a
batch).
-/
theorem reject_only_token_errors (h : List Char) (m : String)
    (herr : PokerHand.new h = .error (.err m)) :
    m = "Cannot create card" ∧ ∃ t ∈ splitOnSpace h, isErrB (Card.new t) = true := by
  unfold PokerHand.new at herr
  cases hp : parseCards (splitOnSpace h) with
  | error e =>
    rw [hp] at herr
    cases herr
    exact parseCards_err hp
  | ok cards =>
    rw [hp] at herr
    obtain ⟨m2, hm2⟩ := classifySorted_err_panic herr
    simp at hm2

/-- Witness for `reject_only_token_errors` at a concrete hand containing
an unparseable token. -/
theorem reject_only_token_errors_witness :
    "Cannot create card" = "Cannot create card" ∧
    ∃ t ∈ splitOnSpace "XX 2H".data, isErrB (Card.new t) = true :=
  reject_only_token_errors "XX 2H".data "Cannot create card" (by decide)

/-! ## Permutation invariance of classification -/

theorem parseCards_ok_tokens : ∀ {ts : List (List Char)} {cs : List Card},
    parseCards ts = .ok cs →
    cs = ts.map cardOf ∧ ∀ t ∈ ts, ∃ c, Card.new t = .ok c := by
  intro ts
  induction ts with
  | nil =>
    intro cs h
    cases h
    exact ⟨rfl, by simp⟩
  | cons t ts ih =>
    intro cs h
    unfold parseCards at h
    cases hc : Card.new t with
    | error e =>
      rw [hc] at h
      cases e <;> simp at h
    | ok c =>
      rw [hc] at h
      cases hp : parseCards ts with
      | error e =>
        rw [hp] at h
        simp at h
      | ok cs2 =>
        rw [hp] at h
        cases h
        obtain ⟨h1, h2⟩ := ih hp
        refine ⟨?_, ?_⟩
        · simp only [List.map_cons, cardOf, hc]
          rw [← h1]
        · intro x hx
          rcases List.mem_cons.mp hx with rfl | hm
          · exact ⟨c, hc⟩
          · exact h2 x hm

theorem parseCards_all_ok : ∀ {ts : List (List Char)},
    (∀ t ∈ ts, ∃ c, Card.new t = .ok c) →
    parseCards ts = .ok (ts.map cardOf) := by
  intro ts
  induction ts with
  | nil => intro _; rfl
  | cons t ts ih =>
    intro h
    obtain ⟨c, hc⟩ := h t (List.mem_cons_self t ts)
    unfold parseCards
    rw [hc, ih (fun y hy => h y (List.mem_cons_of_mem t hy))]
    simp only [List.map_cons, cardOf, hc]

theorem insertCard_pairwise {x : Card} {l : List Card}
    (h : List.Pairwise (fun a b : Card => a.numeric_value ≤ b.numeric_value) l) :
    List.Pairwise (fun a b : Card => a.numeric_value ≤ b.numeric_value) (insertCard x l) := by
  induction l with
  | nil => simp [insertCard]
  | cons y ys ih =>
    unfold insertCard
    rcases List.pairwise_cons.mp h with ⟨hy, hys⟩
    by_cases hlt : x.numeric_value < y.numeric_value
    · rw [if_pos hlt]
      refine List.pairwise_cons.mpr ⟨?_, h⟩
      intro b hb
      rcases List.mem_cons.mp hb with rfl | hm
      · omega
      · have := hy b hm
        omega
    · rw [if_neg hlt]
      refine List.pairwise_cons.mpr ⟨?_, ih hys⟩
      intro b hb
      have hb2 := (insertCard_perm x ys).mem_iff.mp hb
      rcases List.mem_cons.mp hb2 with rfl | hm
      · omega
      · exact hy b hm

theorem sortCards_pairwise (l : List Card) :
    List.Pairwise (fun a b : Card => a.numeric_value ≤ b.numeric_value) (sortCards l) := by
  have hgen : ∀ (l acc : List Card),
      List.Pairwise (fun a b : Card => a.numeric_value ≤ b.numeric_value) acc →
      List.Pairwise (fun a b : Card => a.numeric_value ≤ b.numeric_value)
        (l.foldl (fun acc x => insertCard x acc) acc) := by
    intro l
    induction l with
    | nil => intro acc h; exact h
    | cons x l ih => intro acc h; exact ih _ (insertCard_pairwise h)
  exact hgen l [] (by simp)

theorem sortCards_map_val_eq {cs1 cs2 : List Card} (hperm : cs1.Perm cs2) :
    (sortCards cs1).map (fun c => c.numeric_value) =
    (sortCards cs2).map (fun c => c.numeric_value) := by
  have hs1 : List.Sorted (fun a b : Nat => a ≤ b)
      ((sortCards cs1).map (fun c => c.numeric_value)) :=
    List.pairwise_map.mpr (sortCards_pairwise cs1)
  have hs2 : List.Sorted (fun a b : Nat => a ≤ b)
      ((sortCards cs2).map (fun c => c.numeric_value)) :=
    List.pairwise_map.mpr (sortCards_pairwise cs2)
  exact List.eq_of_perm_of_sorted
    (((sortCards_perm cs1).map _).trans ((hperm.map _).trans ((sortCards_perm cs2).map _).symm))
    hs1 hs2

theorem suitFold_le (l : List Suit) : ∀ (s0 : Suit) (c0 : Nat),
    (l.foldl suitStep (s0, c0)).2 ≤ c0 + l.length := by
  induction l with
  | nil =>
    intro s0 c0
    simp
  | cons x l ih =>
    intro s0 c0
    simp only [List.foldl_cons, suitStep, List.length_cons]
    by_cases h : x = s0
    · rw [if_pos h]
      have hh := ih s0 (c0 + 1)
      omega
    · rw [if_neg h]
      have hh := ih x 0
      omega

theorem suitFold_eq_iff (l : List Suit) : ∀ (s0 : Suit) (c0 : Nat),
    ((l.foldl suitStep (s0, c0)).2 = c0 + l.length ↔ ∀ x ∈ l, x = s0) := by
  induction l with
  | nil =>
    intro s0 c0
    simp
  | cons x l ih =>
    intro s0 c0
    simp only [List.foldl_cons, suitStep, List.length_cons]
    by_cases h : x = s0
    · rw [if_pos h]
      rw [show c0 + (l.length + 1) = (c0 + 1) + l.length by omega, ih s0 (c0 + 1)]
      constructor
      · intro hall y hy
        rcases List.mem_cons.mp hy with rfl | hm
        · exact h
        · exact hall y hm
      · intro hall y hy
        exact hall y (List.mem_cons_of_mem x hy)
    · rw [if_neg h]
      have hle := suitFold_le l x 0
      constructor
      · intro heq
        exfalso
        omega
      · intro hall
        exact absurd (hall x (List.mem_cons_self x l)) h

theorem flushB_iff {first : Card} {rest : List Card}
    (hlen : (first :: rest).length = 5) :
    (((((first :: rest).map (fun c => c.suit)).foldl suitStep (first.suit, 0)).2 == 5) = true ↔
      ∀ x ∈ first :: rest, x.suit = first.suit) := by
  have hl : ((first :: rest).map (fun c => c.suit)).length = 5 := by simpa using hlen
  rw [beq_iff_eq]
  have hiff := suitFold_eq_iff ((first :: rest).map (fun c => c.suit)) first.suit 0
  constructor
  · intro h5
    intro x hx
    refine hiff.mp (by rw [hl]; omega) x.suit ?_
    exact List.mem_map_of_mem _ hx
  · intro hall
    have h2 := hiff.mpr (by
      intro s hs
      obtain ⟨x, hx, rfl⟩ := List.mem_map.mp hs
      exact hall x hx)
    rw [hl] at h2
    omega

theorem classifySorted_congr {f1 f2 : Card} {r1 r2 : List Card}
    (hv : (f1 :: r1).map (fun c => c.numeric_value) = (f2 :: r2).map (fun c => c.numeric_value))
    (hf : ((((f1 :: r1).map (fun c => c.suit)).foldl suitStep (f1.suit, 0)).2 == 5)
        = ((((f2 :: r2).map (fun c => c.suit)).foldl suitStep (f2.suit, 0)).2 == 5)) :
    classifySorted (f1 :: r1) = classifySorted (f2 :: r2) := by
  unfold classifySorted
  dsimp only
  rw [hv, hf]

/--
Claim C9: classification is deterministic (it is a function assigning
exactly one `HandType`) and invariant under permutation of the 5 card
tokens of a hand string: if two 5-token hand strings have permuted token
lists and the first classifies to `t`, the second classifies to the same
`t` (same variant, same tie-break payload).
-/
theorem classification_perm_invariant (h1 h2 : List Char) (t : HandType)
    (hperm : (splitOnSpace h1).Perm (splitOnSpace h2))
    (hlen : (splitOnSpace h1).length = 5)
    (hok : PokerHand.new h1 = .ok t) :
    PokerHand.new h2 = .ok t := by
  unfold PokerHand.new at hok ⊢
  cases hp1 : parseCards (splitOnSpace h1) with
  | error e =>
    rw [hp1] at hok
    simp at hok
  | ok cs1 =>
    rw [hp1] at hok
    have hok2 : classifySorted (sortCards cs1) = .ok t := hok
    obtain ⟨hmap1, hall1⟩ := parseCards_ok_tokens hp1
    have hall2 : ∀ tok ∈ splitOnSpace h2, ∃ c, Card.new tok = .ok c :=
      fun tok htok => hall1 tok (hperm.mem_iff.mpr htok)
    have hp2 := parseCards_all_ok hall2
    rw [hp2]
    show classifySorted (sortCards ((splitOnSpace h2).map cardOf)) = .ok t
    have hcsperm : cs1.Perm ((splitOnSpace h2).map cardOf) := by
      rw [hmap1]
      exact hperm.map cardOf
    have hv := sortCards_map_val_eq hcsperm
    have hlen1 : (sortCards cs1).length = 5 := by
      rw [(sortCards_perm _).length_eq, parseCards_ok_length hp1, hlen]
    have hlen2 : (sortCards ((splitOnSpace h2).map cardOf)).length = 5 := by
      rw [(sortCards_perm _).length_eq, List.length_map, ← hperm.length_eq, hlen]
    obtain ⟨g1, s1, hS1⟩ : ∃ g s, sortCards cs1 = g :: s := by
      cases hq : sortCards cs1 with
      | nil =>
        rw [hq] at hlen1
        simp at hlen1
      | cons g s => exact ⟨g, s, rfl⟩
    obtain ⟨g2, s2, hS2⟩ : ∃ g s, sortCards ((splitOnSpace h2).map cardOf) = g :: s := by
      cases hq : sortCards ((splitOnSpace h2).map cardOf) with
      | nil =>
        rw [hq] at hlen2
        simp at hlen2
      | cons g s => exact ⟨g, s, rfl⟩
    rw [hS1] at hok2 hv hlen1
    rw [hS2] at hv hlen2 ⊢
    have hSperm : (g1 :: s1).Perm (g2 :: s2) := by
      rw [← hS1, ← hS2]
      exact (sortCards_perm _).trans (hcsperm.trans (sortCards_perm _).symm)
    have hf : ((((g1 :: s1).map (fun c => c.suit)).foldl suitStep (g1.suit, 0)).2 == 5)
        = ((((g2 :: s2).map (fun c => c.suit)).foldl suitStep (g2.suit, 0)).2 == 5) := by
      have i1 := @flushB_iff g1 s1 hlen1
      have i2 := @flushB_iff g2 s2 hlen2
      by_cases hb :
          ((((g1 :: s1).map (fun c => c.suit)).foldl suitStep (g1.suit, 0)).2 == 5) = true
      · have hall := i1.mp hb
        have hpair : ∀ x ∈ g2 :: s2, x.suit = g2.suit := by
          intro x hx
          have hx1 := hSperm.mem_iff.mpr hx
          have hg2 := hSperm.mem_iff.mpr (List.mem_cons_self g2 s2)
          rw [hall x hx1, hall g2 hg2]
        rw [hb, i2.mpr hpair]
      · have hb2 : ¬ ((((g2 :: s2).map (fun c => c.suit)).foldl suitStep
            (g2.suit, 0)).2 == 5) = true := by
          intro hcon
          apply hb
          apply i1.mpr
          have hall2s := i2.mp hcon
          intro x hx
          have hx2 := hSperm.mem_iff.mp hx
          have hg1 := hSperm.mem_iff.mp (List.mem_cons_self g1 s1)
          rw [hall2s x hx2, hall2s g1 hg1]
        have hbf : ((((g1 :: s1).map (fun c => c.suit)).foldl suitStep
            (g1.suit, 0)).2 == 5) = false := by
          simpa using hb
        have hbf2 : ((((g2 :: s2).map (fun c => c.suit)).foldl suitStep
            (g2.suit, 0)).2 == 5) = false := by
          simpa using hb2
        rw [hbf, hbf2]
    rw [← classifySorted_congr hv hf]
    exact hok2

/-- Witness for `classification_perm_invariant`: permuting the tokens of
a concrete full-house hand yields the same classification. -/
theorem classification_perm_invariant_witness :
    PokerHand.new "4C 5D 4H 4S 5H".data = .ok (.FullHouse 4 5) :=
  classification_perm_invariant "4S 5H 4C 5D 4H".data "4C 5D 4H 4S 5H".data
    (.FullHouse 4 5) (by decide) (by decide) (by decide)

/-! ## Order and stability of the winner selection -/

theorem pokerHandCmp_self {a : HandType} (ha : WFt a) : pokerHandCmp a a = .eq := by
  have h := pokerHandCmp_swap ha ha
  cases hc : pokerHandCmp a a with
  | lt =>
    rw [hc] at h
    simp [Ordering.swap] at h
  | gt =>
    rw [hc] at h
    simp [Ordering.swap] at h
  | eq => rfl

theorem insertHand_append_of {x : List Char × HandType} {l : List (List Char × HandType)}
    (h : ∀ y ∈ l, (pokerHandCmp x.2 y.2 == Ordering.lt) = false) :
    insertHand x l = l ++ [x] := by
  induction l with
  | nil => rfl
  | cons y ys ih =>
    unfold insertHand
    rw [if_neg (by rw [h y (List.mem_cons_self y ys)]; simp),
      ih (fun z hz => h z (List.mem_cons_of_mem y hz))]
    rfl

theorem filter_insertHand_of_neg {p : List Char × HandType → Bool}
    {x : List Char × HandType} {l : List (List Char × HandType)} (hx : p x = false) :
    (insertHand x l).filter p = l.filter p := by
  induction l with
  | nil => simp [insertHand, hx]
  | cons y ys ih =>
    unfold insertHand
    by_cases h : pokerHandCmp x.2 y.2 == Ordering.lt
    · rw [if_pos h]
      simp [List.filter_cons, hx]
    · rw [if_neg h]
      simp only [List.filter_cons, ih]

theorem takeWhile_append_all {p : List Char × HandType → Bool}
    {u v : List (List Char × HandType)} (h : ∀ x ∈ u, p x = true) :
    (u ++ v).takeWhile p = u ++ v.takeWhile p := by
  induction u with
  | nil => rfl
  | cons x u ih =>
    rw [List.cons_append, List.takeWhile_cons_of_pos (h x (List.mem_cons_self x u)),
      ih (fun y hy => h y (List.mem_cons_of_mem x hy))]
    rfl

theorem split_monotone {p : List Char × HandType → Bool} :
    ∀ {l : List (List Char × HandType)},
    List.Pairwise (fun a b => p a = true → p b = true) l →
    l = l.filter (fun a => ! p a) ++ l.filter p := by
  intro l
  induction l with
  | nil => intro _; rfl
  | cons x l ih =>
    intro h
    rcases List.pairwise_cons.mp h with ⟨hx, hl⟩
    by_cases hpx : p x = true
    · have hall : ∀ b ∈ l, p b = true := fun b hb => hx b hb hpx
      have h1 : l.filter (fun a => ! p a) = [] := by
        rw [List.filter_eq_nil_iff]
        intro b hb
        simp [hall b hb]
      have h2 : l.filter p = l := List.filter_eq_self.mpr hall
      simp [List.filter_cons, hpx, h1, h2]
    · have hpx2 : p x = false := by simpa using hpx
      rw [List.filter_cons_of_pos (by simp [hpx2]), List.filter_cons_of_neg (by simp [hpx2]),
        List.cons_append, ← ih hl]

theorem ordering_beq_iff {a b : Ordering} : (a == b) = true ↔ a = b := by
  cases a <;> cases b <;> decide

theorem insertHand_pairwise {x : List Char × HandType} {l : List (List Char × HandType)}
    (hwx : WFt x.2) (hwl : ∀ y ∈ l, WFt y.2)
    (h : List.Pairwise (fun a b => pokerHandCmp a.2 b.2 ≠ Ordering.gt) l) :
    List.Pairwise (fun a b => pokerHandCmp a.2 b.2 ≠ Ordering.gt) (insertHand x l) := by
  induction l with
  | nil => simp [insertHand]
  | cons y ys ih =>
    have hwy : WFt y.2 := hwl y (List.mem_cons_self y ys)
    have hwys : ∀ z ∈ ys, WFt z.2 := fun z hz => hwl z (List.mem_cons_of_mem y hz)
    rcases List.pairwise_cons.mp h with ⟨hy, hys⟩
    unfold insertHand
    by_cases hlt : pokerHandCmp x.2 y.2 == Ordering.lt
    · rw [if_pos hlt]
      have hxy : pokerHandCmp x.2 y.2 = .lt := ordering_beq_iff.mp hlt
      refine List.pairwise_cons.mpr ⟨?_, h⟩
      intro b hb
      rcases List.mem_cons.mp hb with rfl | hm
      · rw [hxy]
        simp
      · intro hgt
        have hbx : pokerHandCmp b.2 x.2 = .lt := by
          rw [pokerHandCmp_swap hwx (hwl b hb), hgt]
          rfl
        have hby : pokerHandCmp b.2 y.2 = .lt :=
          pokerHandCmp_lt_trans (hwl b hb) hwx hwy hbx hxy
        have hyb : pokerHandCmp y.2 b.2 = .gt := by
          rw [pokerHandCmp_swap (hwl b hb) hwy, hby]
          rfl
        exact absurd hyb (hy b hm)
    · rw [if_neg hlt]
      refine List.pairwise_cons.mpr ⟨?_, ih hwys hys⟩
      intro b hb
      have hb2 := (insertHand_perm x ys).mem_iff.mp hb
      rcases List.mem_cons.mp hb2 with heq | hm
      · rw [heq]
        intro hgt
        have hs := pokerHandCmp_swap hwx hwy
        rw [hgt] at hs
        cases hc : pokerHandCmp x.2 y.2 <;> rw [hc] at hs
        · exact hlt (ordering_beq_iff.mpr hc)
        · simp [Ordering.swap] at hs
        · simp [Ordering.swap] at hs
      · exact hy b hm

theorem sortHands_pairwise {l : List (List Char × HandType)} (hw : ∀ y ∈ l, WFt y.2) :
    List.Pairwise (fun a b => pokerHandCmp a.2 b.2 ≠ Ordering.gt) (sortHands l) := by
  have hgen : ∀ (l2 acc : List (List Char × HandType)), (∀ y ∈ l2, WFt y.2) →
      (∀ y ∈ acc, WFt y.2) →
      List.Pairwise (fun a b => pokerHandCmp a.2 b.2 ≠ Ordering.gt) acc →
      List.Pairwise (fun a b => pokerHandCmp a.2 b.2 ≠ Ordering.gt)
        (l2.foldl (fun acc x => insertHand x acc) acc) := by
    intro l2
    induction l2 with
    | nil =>
      intro acc _ _ hp
      exact hp
    | cons x l2 ih =>
      intro acc hwl2 hwacc hp
      refine ih _ (fun y hy => hwl2 y (List.mem_cons_of_mem x hy)) ?_
        (insertHand_pairwise (hwl2 x (List.mem_cons_self x l2)) hwacc hp)
      intro y hy
      have hy2 := (insertHand_perm x acc).mem_iff.mp hy
      rcases List.mem_cons.mp hy2 with rfl | hm
      · exact hwl2 y (List.mem_cons_self y l2)
      · exact hwacc y hm
  exact hgen l [] hw (by simp) (by simp)

theorem sortHands_filter_stable {m : HandType} (hwm : WFt m)
    {ps : List (List Char × HandType)}
    (hw : ∀ y ∈ ps, WFt y.2)
    (hmax : ∀ y ∈ ps, pokerHandCmp m y.2 ≠ .lt) :
    (sortHands ps).filter (fun p => pokerHandCmp p.2 m == Ordering.eq)
      = ps.filter (fun p => pokerHandCmp p.2 m == Ordering.eq) := by
  have hgen : ∀ (l acc : List (List Char × HandType)),
      (∀ y ∈ l, WFt y.2 ∧ pokerHandCmp m y.2 ≠ .lt) →
      (∀ y ∈ acc, WFt y.2 ∧ pokerHandCmp m y.2 ≠ .lt) →
      (l.foldl (fun acc x => insertHand x acc) acc).filter
          (fun p => pokerHandCmp p.2 m == Ordering.eq)
        = acc.filter (fun p => pokerHandCmp p.2 m == Ordering.eq)
          ++ l.filter (fun p => pokerHandCmp p.2 m == Ordering.eq) := by
    intro l
    induction l with
    | nil =>
      intro acc _ _
      simp
    | cons x l ih =>
      intro acc hl hacc
      have hx := hl x (List.mem_cons_self x l)
      have hstep : ((x :: l).foldl (fun acc x => insertHand x acc) acc)
          = l.foldl (fun acc x => insertHand x acc) (insertHand x acc) := rfl
      rw [hstep, ih (insertHand x acc) (fun y hy => hl y (List.mem_cons_of_mem x hy))
        (fun y hy => by
          have hy2 := (insertHand_perm x acc).mem_iff.mp hy
          rcases List.mem_cons.mp hy2 with heq | hm
          · rw [heq]
            exact hx
          · exact hacc y hm)]
      by_cases hpx : (pokerHandCmp x.2 m == Ordering.eq) = true
      · have hxm : pokerHandCmp x.2 m = .eq := ordering_beq_iff.mp hpx
        have hmx : pokerHandCmp m x.2 = .eq := by
          rw [pokerHandCmp_swap hx.1 hwm, hxm]
          rfl
        have happ : insertHand x acc = acc ++ [x] := by
          apply insertHand_append_of
          intro y hy
          have hy2 := hacc y hy
          cases hc : pokerHandCmp x.2 y.2 with
          | lt =>
            exfalso
            exact hy2.2 (pokerHandCmp_eq_lt hwm hx.1 hy2.1 hmx hc)
          | eq => rfl
          | gt => rfl
        rw [happ, List.filter_append]
        have hfx : List.filter (fun p => pokerHandCmp p.2 m == Ordering.eq) [x] = [x] := by
          simp only [List.filter, hpx]
        rw [hfx,
          List.filter_cons_of_pos
            (p := fun (q : List Char × HandType) => pokerHandCmp q.2 m == Ordering.eq) hpx]
        simp
      · have hpx2 : (pokerHandCmp x.2 m == Ordering.eq) = false := by simpa using hpx
        rw [filter_insertHand_of_neg hpx2, List.filter_cons_of_neg (by simp [hpx2])]
  have hh := hgen ps [] (fun y hy => ⟨hw y hy, hmax y hy⟩) (by simp)
  simpa [sortHands] using hh

/-! ## C3 (amended): the winners are the ties for best in reversed input order -/

theorem ordering_bne_iff {a b : Ordering} : (a != b) = true ↔ a ≠ b := by
  cases a <;> cases b <;> decide

/--
Claim C3 (amended): for every batch of two or more 5-token hands on
which `winning_hands` returns a present result, the returned winners are
exactly the input hands tying for best — those comparing strictly below
no hand of the batch — listed in REVERSE of their relative order in the
input batch (the code stable-sorts ascending and then reverses, which
reverses the relative order of equal elements before the leading run of
ties is collected).
-/
theorem winners_reverse_order (hs ws : List (List Char))
    (hlen : 2 ≤ hs.length)
    (h5 : ∀ x ∈ hs, (splitOnSpace x).length = 5)
    (hok : winningHands hs = .ok (some ws)) :
    ∃ ps, processHands hs = .ok (some ps) ∧
      ws = ((tiesForBest ps).map (fun (p : List Char × HandType) => p.1)).reverse := by
  cases hs with
  | nil => exact absurd hlen (by decide)
  | cons x1 hs1 =>
  cases hs1 with
  | nil => simp at hlen
  | cons x2 rest =>
  cases hp : processHands (x1 :: x2 :: rest) with
  | error m =>
    rw [winningHands_of_err hp] at hok
    exact Except.noConfusion hok
  | ok r =>
    cases r with
    | none =>
      rw [winningHands_of_none hp] at hok
      exact Option.noConfusion (Except.ok.inj hok)
    | some ps =>
      refine ⟨ps, rfl, ?_⟩
      obtain ⟨hmap, hparse⟩ := processHands_some hp
      have hwps : ∀ p ∈ ps, WFt p.2 := by
        intro p hpmem
        have h5p : (splitOnSpace p.1).length = 5 := by
          apply h5
          rw [← hmap]
          exact List.mem_map_of_mem _ hpmem
        exact pokerHand_new_wf h5p (hparse p hpmem)
      obtain ⟨top, rest2, hrev⟩ := sortHands_reverse_cons hp
      have hS : sortHands ps = rest2.reverse ++ [top] := by
        rw [← List.reverse_reverse (sortHands ps), hrev, List.reverse_cons]
      have htopS : top ∈ sortHands ps := by
        rw [hS]
        exact List.mem_append_right _ (List.mem_singleton.mpr rfl)
      have htopps : top ∈ ps := (sortHands_perm ps).mem_iff.mp htopS
      have hwtop : WFt top.2 := hwps top htopps
      have hpair := sortHands_pairwise hwps
      have hrestle : ∀ y ∈ rest2.reverse, pokerHandCmp y.2 top.2 ≠ Ordering.gt := by
        rw [hS] at hpair
        intro y hy
        exact (List.pairwise_append.mp hpair).2.2 y hy top (List.mem_singleton.mpr rfl)
      have hmax : ∀ y ∈ ps, pokerHandCmp top.2 y.2 ≠ Ordering.lt := by
        intro y hy hlt2
        have hyS : y ∈ sortHands ps := (sortHands_perm ps).mem_iff.mpr hy
        rw [hS] at hyS
        rcases List.mem_append.mp hyS with hy1 | hy2
        · have hgt : pokerHandCmp y.2 top.2 = Ordering.gt := by
            rw [pokerHandCmp_swap hwtop (hwps y hy), hlt2]
            rfl
          exact hrestle y hy1 hgt
        · rw [List.mem_singleton.mp hy2] at hlt2
          rw [pokerHandCmp_self hwtop] at hlt2
          exact Ordering.noConfusion hlt2
      have hmono : List.Pairwise (fun a b =>
          (pokerHandCmp a.2 top.2 == Ordering.eq) = true →
          (pokerHandCmp b.2 top.2 == Ordering.eq) = true) (sortHands ps) := by
        refine hpair.imp_of_mem ?_
        intro a b ha hb hab hPa
        have hwa : WFt a.2 := hwps a ((sortHands_perm ps).mem_iff.mp ha)
        have hwb : WFt b.2 := hwps b ((sortHands_perm ps).mem_iff.mp hb)
        have hat : pokerHandCmp a.2 top.2 = Ordering.eq := ordering_beq_iff.mp hPa
        have hta : pokerHandCmp top.2 a.2 = Ordering.eq := by
          rw [pokerHandCmp_swap hwa hwtop, hat]
          rfl
        cases hcb : pokerHandCmp b.2 top.2 with
        | lt =>
          have hba : pokerHandCmp b.2 a.2 = Ordering.lt :=
            pokerHandCmp_lt_eq hwb hwtop hwa hcb hta
          have hgt2 : pokerHandCmp a.2 b.2 = Ordering.gt := by
            rw [pokerHandCmp_swap hwb hwa, hba]
            rfl
          exact absurd hgt2 hab
        | eq => rfl
        | gt =>
          have hlt4 : pokerHandCmp top.2 b.2 = Ordering.lt := by
            rw [pokerHandCmp_swap hwb hwtop, hcb]
            rfl
          exact absurd hlt4 (hmax b ((sortHands_perm ps).mem_iff.mp hb))
      obtain ⟨A, hsplit, hAfail⟩ :
          ∃ A, sortHands ps = A ++ (sortHands ps).filter
              (fun (q : List Char × HandType) => pokerHandCmp q.2 top.2 == Ordering.eq)
            ∧ ∀ x ∈ A, (pokerHandCmp x.2 top.2 == Ordering.eq) = false := by
        refine ⟨(sortHands ps).filter (fun (q : List Char × HandType) =>
          ! (pokerHandCmp q.2 top.2 == Ordering.eq)), ?_, ?_⟩
        · exact split_monotone hmono
        · intro x hx
          have hxx := (List.mem_filter.mp hx).2
          simpa using hxx
      have hB : (sortHands ps).filter
            (fun (q : List Char × HandType) => pokerHandCmp q.2 top.2 == Ordering.eq)
          = ps.filter
            (fun (q : List Char × HandType) => pokerHandCmp q.2 top.2 == Ordering.eq) :=
        sortHands_filter_stable hwtop hwps hmax
      have hties : tiesForBest ps = ps.filter
          (fun (q : List Char × HandType) => pokerHandCmp q.2 top.2 == Ordering.eq) := by
        unfold tiesForBest
        refine List.filter_congr ?_
        intro p hpm
        have hwp : WFt p.2 := hwps p hpm
        show ps.all (fun q => pokerHandCmp p.2 q.2 != Ordering.lt)
          = (pokerHandCmp p.2 top.2 == Ordering.eq)
        by_cases hPp : (pokerHandCmp p.2 top.2 == Ordering.eq) = true
        · rw [hPp]
          refine List.all_eq_true.mpr ?_
          intro q hq
          show (pokerHandCmp p.2 q.2 != Ordering.lt) = true
          refine ordering_bne_iff.mpr ?_
          intro hl
          have hpt : pokerHandCmp p.2 top.2 = Ordering.eq := ordering_beq_iff.mp hPp
          have htp : pokerHandCmp top.2 p.2 = Ordering.eq := by
            rw [pokerHandCmp_swap hwp hwtop, hpt]
            rfl
          exact hmax q hq (pokerHandCmp_eq_lt hwtop hwp (hwps q hq) htp hl)
        · have hPp2 : (pokerHandCmp p.2 top.2 == Ordering.eq) = false := by
            simpa using hPp
          rw [hPp2]
          have hne : pokerHandCmp p.2 top.2 ≠ Ordering.eq := by
            intro hc
            rw [hc] at hPp2
            exact absurd hPp2 (by decide)
          have hngt : pokerHandCmp p.2 top.2 ≠ Ordering.gt := by
            intro hc
            have hlt5 : pokerHandCmp top.2 p.2 = Ordering.lt := by
              rw [pokerHandCmp_swap hwp hwtop, hc]
              rfl
            exact hmax p hpm hlt5
          have hlt3 : pokerHandCmp p.2 top.2 = Ordering.lt := by
            cases hc : pokerHandCmp p.2 top.2 with
            | lt => rfl
            | eq => exact absurd hc hne
            | gt => exact absurd hc hngt
          refine Bool.eq_false_iff.mpr ?_
          intro hall
          have hct : (pokerHandCmp p.2 top.2 != Ordering.lt) = true :=
            List.all_eq_true.mp hall top htopps
          rw [hlt3] at hct
          exact absurd hct (by decide)
      have hrev2 := hrev
      rw [hsplit, List.reverse_append] at hrev2
      cases hBr : ((sortHands ps).filter
          (fun (q : List Char × HandType) =>
            pokerHandCmp q.2 top.2 == Ordering.eq)).reverse with
      | nil =>
        exfalso
        have hPtop : (pokerHandCmp top.2 top.2 == Ordering.eq) = true := by
          rw [pokerHandCmp_self hwtop]
          rfl
        have htopB : top ∈ (sortHands ps).filter
            (fun (q : List Char × HandType) => pokerHandCmp q.2 top.2 == Ordering.eq) :=
          List.mem_filter.mpr ⟨htopS, hPtop⟩
        have hBnil : (sortHands ps).filter
            (fun (q : List Char × HandType) => pokerHandCmp q.2 top.2 == Ordering.eq) = [] :=
          List.reverse_eq_nil_iff.mp hBr
        rw [hBnil] at htopB
        exact List.not_mem_nil top htopB
      | cons t br =>
        rw [hBr, List.cons_append] at hrev2
        injection hrev2 with ht hrest2
        subst ht
        have hbrP : ∀ x ∈ br, (pokerHandCmp x.2 t.2 == Ordering.eq) = true := by
          intro x hx
          have hxB : x ∈ (sortHands ps).filter
              (fun (q : List Char × HandType) => pokerHandCmp q.2 t.2 == Ordering.eq) := by
            rw [← List.mem_reverse, hBr]
            exact List.mem_cons_of_mem t hx
          exact (List.mem_filter.mp hxB).2
        have htake : rest2.takeWhile (fun (q : List Char × HandType) =>
            pokerHandCmp q.2 t.2 == Ordering.eq) = br := by
          rw [← hrest2, takeWhile_append_all hbrP]
          cases hA : A.reverse with
          | nil => simp
          | cons a as =>
            have hxa : (pokerHandCmp a.2 t.2 == Ordering.eq) = false := by
              refine hAfail a (List.mem_reverse.mp ?_)
              rw [hA]
              exact List.mem_cons_self a as
            rw [List.takeWhile_cons_of_neg (by simp [hxa])]
            simp
        have hws : ws = t.1 :: (rest2.takeWhile (fun (p : List Char × HandType) =>
            pokerHandCmp p.2 t.2 == Ordering.eq)).map (fun (p : List Char × HandType) => p.1) :=
          Option.some.inj (Except.ok.inj (hok.symm.trans (winningHands_of_some hp hrev)))
        rw [hws, htake, hties, ← hB, ← List.map_reverse, hBr]
        rfl

/--
Claim C3 witness: on the concrete batch [2H 3H 4H 5H 6H, 2S 3S 4S 5S 6S]
of two tying straight flushes, `winning_hands` returns the tying hands in
reversed input order, and they are exactly the ties for best.
-/
theorem winners_reverse_order_witness :
    2 ≤ (["2H 3H 4H 5H 6H".data, "2S 3S 4S 5S 6S".data] : List (List Char)).length ∧
    (∀ x ∈ (["2H 3H 4H 5H 6H".data, "2S 3S 4S 5S 6S".data] : List (List Char)),
      (splitOnSpace x).length = 5) ∧
    winningHands ["2H 3H 4H 5H 6H".data, "2S 3S 4S 5S 6S".data]
      = .ok (some ["2S 3S 4S 5S 6S".data, "2H 3H 4H 5H 6H".data]) ∧
    ∃ ps, processHands ["2H 3H 4H 5H 6H".data, "2S 3S 4S 5S 6S".data] = .ok (some ps) ∧
      ["2S 3S 4S 5S 6S".data, "2H 3H 4H 5H 6H".data]
        = ((tiesForBest ps).map (fun (p : List Char × HandType) => p.1)).reverse :=
  ⟨by decide, by decide, by decide,
    winners_reverse_order _ _ (by decide) (by decide) (by decide)⟩
